import Mathlib

/-!
Shallow embedding of the ordered-map core of the flashcards repository
(src/main.go): an intrusive doubly linked ring list with a sentinel,
composed with a hash map, plus the card-store consumer `HardestCard`.

Pointers are modelled as ids into an explicit heap; Go's nil pointer is
`none`.  Every operation that dereferences a pointer is written in the
`Option` monad, where `none` models a Go panic (nil dereference or access
to a non-allocated id).  Machine integers that matter (the list length
field, error counters) are modelled as `Int`.
-/

namespace Flashcards

/-- A pointer to a heap cell: the cell's id, or `none` for Go's `nil`. -/
abbrev Ptr := Option Nat

/-- Embedding of the Go struct `Element[T]` (src/main.go:19): next/prev
pointers in the ring, the back-reference `list` to the owning `List`
(modelled as the owning list's id), and the stored value. -/
structure GoElem (T : Type) where
  next : Ptr
  prev : Ptr
  list : Option Nat
  value : T
  deriving DecidableEq

/-- Embedding of the Go struct `List[T]` (src/main.go:13): the sentinel
`root` is an element in the global element heap, identified by its id;
`len` is the length counter (a Go `int`, modelled as `Int`). -/
structure GoList where
  root : Nat
  len : Int
  deriving DecidableEq

/-- The mutable heap: all allocated list elements and all allocated
`List` headers.  Ids are positions; allocation appends. -/
structure World (T : Type) where
  elems : List (GoElem T)
  lists : List GoList
  deriving DecidableEq

variable {T : Type}

/-- Read the element at id `i`, `none` if no such allocation. -/
def World.elem (w : World T) (i : Nat) : Option (GoElem T) :=
  w.elems[i]?

/-- Read the `List` header with id `lid`. -/
def World.list (w : World T) (lid : Nat) : Option GoList :=
  w.lists[lid]?

/-- Overwrite the element at id `i` (no-op when out of range; all callers
write to ids they have just successfully read). -/
def World.setElem (w : World T) (i : Nat) (e : GoElem T) : World T :=
  ⟨w.elems.set i e, w.lists⟩

/-- Overwrite the `List` header with id `lid`. -/
def World.setList (w : World T) (lid : Nat) (r : GoList) : World T :=
  ⟨w.elems, w.lists.set lid r⟩

/-- Go statement `p.next = q` through a pointer: panics (`none`) when `p`
is nil or dangling. -/
def World.writeNext (w : World T) (p : Ptr) (q : Ptr) : Option (World T) := do
  let i ← p
  let e ← w.elem i
  pure (w.setElem i { e with next := q })

/-- Go statement `p.prev = q` through a pointer. -/
def World.writePrev (w : World T) (p : Ptr) (q : Ptr) : Option (World T) := do
  let i ← p
  let e ← w.elem i
  pure (w.setElem i { e with prev := q })

/-- Go statement `p.list = q` through a pointer. -/
def World.writeListF (w : World T) (p : Ptr) (q : Option Nat) : Option (World T) := do
  let i ← p
  let e ← w.elem i
  pure (w.setElem i { e with list := q })

/-- Dereference a pointer to an element. -/
def World.readPtr (w : World T) (p : Ptr) : Option (GoElem T) := do
  let i ← p
  w.elem i

/-!  The doubly linked list operations, translated from src/main.go.
Each operation acts on a list id `lid` in a `World`; results live in
`Option`, with `none` modelling a Go panic. -/

/-- Go `func (l *List[T]) Init() *List[T]` (src/main.go:56):
`l.root.next = &l.root; l.root.prev = &l.root; l.len = 0`. -/
def Init (w : World T) (lid : Nat) : Option (World T) := do
  let l ← w.list lid
  let w ← w.writeNext (some l.root) (some l.root)
  let w ← w.writePrev (some l.root) (some l.root)
  pure (w.setList lid { l with len := 0 })

/-- Go `func (l *List[T]) lazyInit()` (src/main.go:63):
if `l.root.next == nil` then `l.Init()`. -/
def lazyInit (w : World T) (lid : Nat) : Option (World T) := do
  let l ← w.list lid
  let r ← w.elem l.root
  if r.next = none then Init w lid else pure w

/-- Allocation performed by Go `new(List[T])` (src/main.go:46): a zeroed
`List` header whose embedded sentinel element is a fresh zeroed element;
`d` is the zero value of `T`. -/
def allocList (w : World T) (d : T) : World T × Nat :=
  (⟨w.elems ++ [⟨none, none, none, d⟩], w.lists ++ [⟨w.elems.length, 0⟩]⟩,
    w.lists.length)

/-- Go `func NewList[T any]() *List[T]` (src/main.go:46):
`new(List[T]).Init()`. -/
def NewList (w : World T) (d : T) : Option (World T × Nat) := do
  let wl := allocList w d
  let w2 ← Init wl.1 wl.2
  pure (w2, wl.2)

/-- Go `func (l *List[T]) insert(e, at *Element[T]) *Element[T]`
(src/main.go:70), statement by statement:
`e.prev = at; e.next = at.next; e.prev.next = e; e.next.prev = e;
e.list = l; l.len++; return e`. -/
def insert (w : World T) (lid : Nat) (e : Nat) (at_ : Ptr) :
    Option (World T × Nat) := do
  let w ← w.writePrev (some e) at_
  let a ← w.readPtr at_
  let w ← w.writeNext (some e) a.next
  let e1 ← w.elem e
  let w ← w.writeNext e1.prev (some e)
  let e2 ← w.elem e
  let w ← w.writePrev e2.next (some e)
  let w ← w.writeListF (some e) (some lid)
  let l ← w.list lid
  pure (w.setList lid { l with len := l.len + 1 }, e)

/-- Go `func (l *List[T]) insertValue(v T, at *Element[T])`
(src/main.go:81): allocates `&Element[T]{Value: v}` and inserts it. -/
def insertValue (w : World T) (lid : Nat) (v : T) (at_ : Ptr) :
    Option (World T × Nat) :=
  let e := w.elems.length
  let w : World T := ⟨w.elems ++ [⟨none, none, none, v⟩], w.lists⟩
  insert w lid e at_

/-- Go `func (l *List[T]) PushBack(v T) *Element[T]` (src/main.go:86):
`l.lazyInit(); return l.insertValue(v, l.root.prev)`. -/
def PushBack (w : World T) (lid : Nat) (v : T) : Option (World T × Nat) := do
  let w ← lazyInit w lid
  let l ← w.list lid
  let r ← w.elem l.root
  insertValue w lid v r.prev

/-- Go `func (l *List[T]) remove(e *Element[T])` (src/main.go:121):
`e.prev.next = e.next; e.next.prev = e.prev; e.next = nil; e.prev = nil;
e.list = nil; l.len--`. -/
def remove (w : World T) (lid : Nat) (e : Nat) : Option (World T) := do
  let e1 ← w.elem e
  let w ← w.writeNext e1.prev e1.next
  let e2 ← w.elem e
  let w ← w.writePrev e2.next e2.prev
  let w ← w.writeNext (some e) none
  let w ← w.writePrev (some e) none
  let w ← w.writeListF (some e) none
  let l ← w.list lid
  pure (w.setList lid { l with len := l.len - 1 })

/-- Go `func (l *List[T]) Remove(e *Element[T]) T` (src/main.go:133):
`if e.list == l { l.remove(e) }; return e.Value`.  The element pointer
must not be nil (a nil pointer panics, modelled by `none`). -/
def Remove (w : World T) (lid : Nat) (p : Ptr) : Option (World T × T) := do
  let i ← p
  let e ← w.elem i
  let w ← if e.list = some lid then remove w lid i else pure w
  let e2 ← w.elem i
  pure (w, e2.value)

/-- Go `func (l *List[T]) Front() *Element[T]` (src/main.go:161):
`if l.len == 0 { return nil }; return l.root.next`. -/
def Front (w : World T) (lid : Nat) : Option Ptr := do
  let l ← w.list lid
  if l.len = 0 then pure none
  else do
    let r ← w.elem l.root
    pure r.next

/-- Go `func (e *Element[T]) Next() *Element[T]` (src/main.go:184):
`if p := e.next; e.list != nil && p != &e.list.root { return p };
return nil`. -/
def Next (w : World T) (i : Nat) : Option Ptr := do
  let e ← w.elem i
  match e.list with
  | none => pure none
  | some lid => do
    let l ← w.list lid
    if e.next ≠ some l.root then pure e.next else pure none

/-- Iterated next-pointer chasing: `chain w start n` follows the raw
`next` field `n` times starting at element id `start` (used to state the
ring invariant of the list). -/
def chain (w : World T) (start : Nat) : Nat → Option Nat
  | 0 => some start
  | n + 1 => do
    let i ← chain w start n
    let e ← w.elem i
    e.next

/-!  The ring representation invariant.  A list `lid` is well formed when
its elements form a doubly linked ring anchored at the sentinel. -/

/-- One link of the ring: element `a`'s `next` points at `b`, and `b`'s
`prev` points back at `a`. -/
def linkRel (w : World T) (a b : Nat) : Prop :=
  (∃ ea, w.elem a = some ea ∧ ea.next = some b) ∧
  (∃ eb, w.elem b = some eb ∧ eb.prev = some a)

/-- The ring shape of a list: starting at the sentinel `root`, the ids in
`eids` follow in order via matched next/prev pointers and the ring closes
back at `root`. -/
def Ring (w : World T) (root : Nat) (eids : List Nat) : Prop :=
  List.Chain' (linkRel w) (root :: eids ++ [root])

/-- Full representation invariant of list `lid`: the ring shape, no
duplicate ids, the `len` counter equal to the number of non-sentinel
elements, every ring element owned (its `list` back-reference set to
`lid`), ownership completeness (every element whose back-reference is
`lid` is in the ring), and the sentinel owned by nobody. -/
def CoreRep (w : World T) (lid : Nat) (eids : List Nat) : Prop :=
  ∃ l, w.list lid = some l ∧
    Ring w l.root eids ∧
    (l.root :: eids).Nodup ∧
    l.len = (eids.length : Int) ∧
    (∀ a ∈ eids, ∃ e, w.elem a = some e ∧ e.list = some lid) ∧
    (∀ j e, w.elem j = some e → e.list = some lid → j ∈ eids) ∧
    (∃ re, w.elem l.root = some re ∧ re.list = none)

/-- The freshly created list world: one `List` header whose sentinel is
element 0, forming the empty self-ring. -/
def newListWorld (d : T) : World T := ⟨[⟨some 0, some 0, none, d⟩], [⟨0, 0⟩]⟩

/-- Worlds reachable from the freshly initialized empty list by PushBack
and by Remove of elements owned by the list. -/
inductive LReach (d : T) : World T → Nat → Prop where
  | base : LReach d (newListWorld d) 0
  | push {w : World T} {lid : Nat} {v : T} {w' : World T} {e : Nat} :
      LReach d w lid → PushBack w lid v = some (w', e) → LReach d w' lid
  | rem {w : World T} {lid i : Nat} {e : GoElem T} {w' : World T} {val : T} :
      LReach d w lid → w.elem i = some e → e.list = some lid →
      Remove w lid (some i) = some (w', val) → LReach d w' lid

/-!  The ordered map, translated from src/main.go.  The Go hash map
`map[K]*Pair[K,V]` is modelled as an association list with unique keys
mapping each key to the id of its pair in the pair heap; only its lookup
behaviour matters (Go map iteration is never used by the code).  Pair
pointers are pair-heap ids; the element values stored in the intrusive
list are pointers to pairs. -/

/-- Embedding of the Go struct `Pair[K, V]` (src/main.go:34). -/
structure GoPair (K V : Type) where
  key : K
  value : V
  element : Ptr

/-- Embedding of `OrderedMap[K, V]` (src/main.go:41). -/
structure OMap (K V : Type) where
  world : World Ptr
  pairsH : List (GoPair K V)
  pmap : List (K × Nat)
  lid : Nat

variable {K V : Type} [DecidableEq K]

/-- Lookup in the modelled Go map `om.pairs[key]`. -/
def mapGet : List (K × Nat) → K → Option Nat
  | [], _ => none
  | (k', p) :: rest, k => if k' = k then some p else mapGet rest k

/-- Update/insert in the modelled Go map `om.pairs[key] = pair`. -/
def mapSet : List (K × Nat) → K → Nat → List (K × Nat)
  | [], k, pid => [(k, pid)]
  | (k', p') :: rest, k, pid =>
    if k' = k then (k, pid) :: rest else (k', p') :: mapSet rest k pid

/-- Deletion in the modelled Go map `delete(om.pairs, key)`. -/
def mapDel (m : List (K × Nat)) (k : K) : List (K × Nat) :=
  m.filter (fun kv => kv.1 ≠ k)

/-- Go `func New[K comparable, V any]() *OrderedMap[K, V]`
(src/main.go:49): an empty hash map and a fresh initialized list. -/
def New : OMap K V :=
  match NewList (⟨[], []⟩ : World Ptr) none with
  | some (w, lid) => ⟨w, [], [], lid⟩
  | none => ⟨⟨[], []⟩, [], [], 0⟩

/-- Go `func (om *OrderedMap[K, V]) Get(key K) (val V, present bool)`
(src/main.go:93). -/
def Get [Inhabited V] (om : OMap K V) (k : K) : Option (V × Bool) :=
  match mapGet om.pmap k with
  | some pid => do
    let p ← om.pairsH[pid]?
    pure (p.value, true)
  | none => some (default, false)

/-- Go `func (om *OrderedMap[K, V]) Set(key K, value V) (val V, present bool)`
(src/main.go:103): on a present key the pair value is replaced in place;
on an absent key a fresh pair is allocated, pushed at the back of the
list, its element reference recorded, and the hash map extended. -/
def Set [Inhabited V] (om : OMap K V) (k : K) (v : V) :
    Option (OMap K V × V × Bool) :=
  match mapGet om.pmap k with
  | some pid => do
    let p ← om.pairsH[pid]?
    pure ({ om with pairsH := om.pairsH.set pid { p with value := v } },
      p.value, true)
  | none => do
    let pid := om.pairsH.length
    let ph := om.pairsH ++ [⟨k, v, none⟩]
    let res ← PushBack om.world om.lid (some pid)
    let p ← ph[pid]?
    let ph2 := ph.set pid { p with element := some res.2 }
    pure (⟨res.1, ph2, mapSet om.pmap k pid, om.lid⟩, default, false)

/-- Go `func (om *OrderedMap[K, V]) Delete(key K) (val V, present bool)`
(src/main.go:144). -/
def Delete [Inhabited V] (om : OMap K V) (k : K) :
    Option (OMap K V × V × Bool) :=
  match mapGet om.pmap k with
  | some pid => do
    let p ← om.pairsH[pid]?
    let res ← Remove om.world om.lid p.element
    let om2 : OMap K V := { om with world := res.1, pmap := mapDel om.pmap k }
    let p2 ← om2.pairsH[pid]?
    pure (om2, p2.value, true)
  | none => some (om, default, false)

/-- Go `func listElementToPair[K comparable, V any](element) *Pair[K, V]`
(src/main.go:153). -/
def listElementToPair (w : World Ptr) (p : Ptr) : Option Ptr :=
  match p with
  | none => some none
  | some eid => do
    let e ← w.elem eid
    pure e.value

/-- Go `func (om *OrderedMap[K, V]) Oldest() *Pair[K, V]`
(src/main.go:179): `listElementToPair(om.list.Front())`. -/
def Oldest (om : OMap K V) : Option Ptr := do
  let f ← Front om.world om.lid
  listElementToPair om.world f

/-- Go `func (p *Pair[K, V]) Next() *Pair[K, V]` (src/main.go:192):
`listElementToPair(p.element.Next())`; calling it on a nil pair pointer
or with a nil element reference panics. -/
def PairNext (om : OMap K V) (pid : Nat) : Option Ptr := do
  let p ← om.pairsH[pid]?
  let eid ← p.element
  let np ← Next om.world eid
  listElementToPair om.world np

/-- The iteration loop `for pair := om.Oldest(); pair != nil;
pair = pair.Next()`, collecting the visited key/value pairs.  `fuel`
bounds the number of steps so the function is total; on well-formed maps
the fuel `om.pairsH.length` used by `traversal` suffices. -/
def traverseFrom (om : OMap K V) : Ptr → Nat → Option (List (K × V))
  | none, _ => some []
  | some _, 0 => none
  | some pid, fuel + 1 => do
    let p ← om.pairsH[pid]?
    let np ← PairNext om pid
    let rest ← traverseFrom om np fuel
    pure ((p.key, p.value) :: rest)

/-- The full Oldest/Next traversal of the ordered map. -/
def traversal (om : OMap K V) : Option (List (K × V)) := do
  let st ← Oldest om
  traverseFrom om st om.pairsH.length

/-- A mutating call on the ordered map. -/
inductive Op (K V : Type) where
  | set (k : K) (v : V)
  | del (k : K)

/-- Run a sequence of Set/Delete calls, propagating panics. -/
def runOps [Inhabited V] : OMap K V → List (Op K V) → Option (OMap K V)
  | om, [] => some om
  | om, Op.set k v :: rest => do
    let r ← Set om k v
    runOps r.1 rest
  | om, Op.del k :: rest => do
    let r ← Delete om k
    runOps r.1 rest

/-- Run a sequence of Set/Delete calls from a freshly created map. -/
def run [Inhabited V] (ops : List (Op K V)) : Option (OMap K V) :=
  runOps New ops

/-- The abstract insertion-ordered association list used to state the
specification claims: Set on a present key updates the value in place,
Set on an absent key appends at the end, Delete removes the entry. -/
def specSet : List (K × V) → K → V → List (K × V)
  | [], k, v => [(k, v)]
  | (k', v') :: rest, k, v =>
    if k' = k then (k, v) :: rest else (k', v') :: specSet rest k v

/-- Abstract deletion: drop the entry with the given key. -/
def specDel (m : List (K × V)) (k : K) : List (K × V) :=
  m.filter (fun kv => kv.1 ≠ k)

/-- Abstract run of a call sequence. -/
def specRun : List (K × V) → List (Op K V) → List (K × V)
  | m, [] => m
  | m, Op.set k v :: rest => specRun (specSet m k v) rest
  | m, Op.del k :: rest => specRun (specDel m k) rest

/-- Representation invariant of the ordered map: the list world is a
well-formed ring over `eids`, `pids` are the pair ids in ring order, `M`
is the abstract key/value list in ring order, pairs and elements
cross-reference each other, keys are unique, and the hash map's lookup
behaviour matches `M`. -/
def OMRep (om : OMap K V) (pids eids : List Nat) (M : List (K × V)) : Prop :=
  CoreRep om.world om.lid eids ∧
  pids.length = eids.length ∧
  M.length = pids.length ∧
  (∀ (i pid : Nat), pids[i]? = some pid →
    ∃ (p : GoPair K V) (eid : Nat) (kv : K × V),
    eids[i]? = some eid ∧
    M[i]? = some kv ∧ om.pairsH[pid]? = some p ∧
    p.element = some eid ∧ p.key = kv.1 ∧ p.value = kv.2) ∧
  (∀ (i eid : Nat), eids[i]? = some eid → ∃ (e : GoElem Ptr) (pid : Nat),
    pids[i]? = some pid ∧
    om.world.elem eid = some e ∧ e.value = some pid) ∧
  (M.map Prod.fst).Nodup ∧
  (∀ (i : Nat) (kv : K × V), M[i]? = some kv →
    ∃ (pid : Nat), pids[i]? = some pid ∧
    mapGet om.pmap kv.1 = some pid) ∧
  (∀ k, (∀ kv ∈ M, kv.1 ≠ k) → mapGet om.pmap k = none)

/-- A sample call sequence and the map it produces, used to instantiate
the claim theorems. -/
def exOps : List (Op String Nat) :=
  [Op.set "a" 1, Op.set "b" 2, Op.set "c" 3, Op.del "b", Op.set "b" 9]

/-- The concrete map reached by `exOps`. -/
def exOm : OMap String Nat := (run exOps).getD New

/-- The a, b, c scenario from the specification. -/
def exOps3 : List (Op String Nat) :=
  [Op.set "a" 1, Op.set "b" 2, Op.set "c" 3]

/-- The concrete map holding a, b, c. -/
def exOm3 : OMap String Nat := (run exOps3).getD New

/-- A concrete reachable list world: one element pushed onto the fresh
empty ring. -/
def exLW : World Nat :=
  ((PushBack (newListWorld 0) 0 5).getD (newListWorld 0, 0)).1

/-!  The card store and the HardestCard feature, translated from
src/main.go. -/

/-- Embedding of the Go struct `TermError` (src/main.go:196); the error
counter is a Go `int`. -/
structure TermError where
  term : String
  errors : Int
  deriving DecidableEq

instance : Inhabited TermError := ⟨⟨"", 0⟩⟩

/-- Embedding of the Go struct `Cards` (src/main.go:201). -/
structure Cards where
  TermToDef : OMap String String
  DefToTerm : OMap String TermError

/-- Result of Go formatting an `int` with the `%s` verb, as
`fmt.Sprintf` does in the multi-card branch of HardestCard. -/
def goSprintfSInt (n : Nat) : String := "%!s(int=" ++ toString n ++ ")"

/-- The accumulator loop of HardestCard (src/main.go:350): folds the
visited pair values over the state (mxErr, term, terms).  On a strictly
larger error count the state is reset; on a tie the code appends the
accumulator variable `term` (not the tied card's term) to `terms`. -/
def hardestLoop : List TermError → Int × String × List String →
    Int × String × List String
  | [], st => st
  | te :: rest, (mxErr, term, terms) =>
    if te.errors > mxErr then hardestLoop rest (te.errors, te.term, [te.term])
    else if te.errors = mxErr then
      hardestLoop rest (mxErr, term, terms ++ [term])
    else hardestLoop rest (mxErr, term, terms)

/-- The answer-building loop of HardestCard's multi-card branch
(src/main.go:366): Go's `for t := range terms` ranges over the indices
of `terms`, and the index `t` is formatted with the `%s` verb. -/
def hardestAnsLoop : List Nat → Bool → String → String
  | [], _, ans => ans
  | t :: rest, first, ans =>
    let ans1 := if !first then ans ++ ", " else ans
    hardestAnsLoop rest false (ans1 ++ "\"" ++ goSprintfSInt t ++ "\"")

/-- Go `func HardestCard(cards *Cards) string` (src/main.go:346),
iterating DefToTerm via Oldest/Next. -/
def HardestCard (cards : Cards) : Option String := do
  let tr ← traversal cards.DefToTerm
  let st := hardestLoop (tr.map Prod.snd) (-1, "", [])
  let l ← cards.DefToTerm.world.list cards.DefToTerm.lid
  if st.1 = 0 ∨ l.len = 0 then
    pure "There are no cards with errors."
  else if st.2.2.length = 1 then
    pure ("The hardest card is \"" ++ st.2.1 ++ "\". You have " ++
      toString st.1 ++ " errors answering it")
  else if st.2.2.length > 1 then
    pure ("The hardest cards are " ++
      hardestAnsLoop (List.range st.2.2.length) true "")
  else pure "-1"

/-- The single-card report format of HardestCard (src/main.go:364). -/
def singleMsg (t : String) (m : Int) : String :=
  "The hardest card is \"" ++ t ++ "\". You have " ++ toString m ++
    " errors answering it"

/-- The definition-to-term map with two distinct terms tied at one error
each. -/
def exDm : OMap String TermError :=
  (run [Op.set "d1" ⟨"t1", 1⟩, Op.set "d2" ⟨"t2", 1⟩]).getD New

/-- A card store with two distinct terms tied for the maximal positive
error count. -/
def cardsEx : Cards := ⟨New, exDm⟩

theorem elem_setElem_self {w : World T} {i : Nat} {e e' : GoElem T}
    (h : w.elem i = some e) : (w.setElem i e').elem i = some e' := by
  have hlt : i < w.elems.length := by
    by_contra hge
    rw [World.elem, List.getElem?_eq_none (Nat.le_of_not_lt hge)] at h
    exact Option.noConfusion h
  simp [World.elem, World.setElem, List.getElem?_set_self', hlt]

theorem elem_setElem_ne {w : World T} {i j : Nat} {e' : GoElem T}
    (h : j ≠ i) : (w.setElem i e').elem j = w.elem j := by
  simp [World.elem, World.setElem, List.getElem?_set_ne (fun hh => h hh.symm)]

theorem list_setElem {w : World T} {i : Nat} {e' : GoElem T} (lid : Nat) :
    (w.setElem i e').list lid = w.list lid := rfl

theorem elem_setList {w : World T} {lid : Nat} {r : GoList} (i : Nat) :
    (w.setList lid r).elem i = w.elem i := rfl

theorem list_setList_self {w : World T} {lid : Nat} {r r' : GoList}
    (h : w.list lid = some r) : (w.setList lid r').list lid = some r' := by
  have hlt : lid < w.lists.length := by
    by_contra hge
    rw [World.list, List.getElem?_eq_none (Nat.le_of_not_lt hge)] at h
    exact Option.noConfusion h
  simp [World.list, World.setList, List.getElem?_set_self', hlt]

theorem list_setList_ne {w : World T} {lid lid' : Nat} {r' : GoList}
    (h : lid' ≠ lid) : (w.setList lid r').list lid' = w.list lid' := by
  simp [World.list, World.setList, List.getElem?_set_ne (fun hh => h hh.symm)]

theorem length_setElem {w : World T} {i : Nat} {e : GoElem T} :
    (w.setElem i e).elems.length = w.elems.length := by
  simp [World.setElem]

theorem writeNext_eq {w : World T} {i : Nat} {e : GoElem T}
    (h : w.elem i = some e) (q : Ptr) :
    w.writeNext (some i) q = some (w.setElem i { e with next := q }) := by
  simp [World.writeNext, h]

theorem writePrev_eq {w : World T} {i : Nat} {e : GoElem T}
    (h : w.elem i = some e) (q : Ptr) :
    w.writePrev (some i) q = some (w.setElem i { e with prev := q }) := by
  simp [World.writePrev, h]

theorem writeListF_eq {w : World T} {i : Nat} {e : GoElem T}
    (h : w.elem i = some e) (q : Option Nat) :
    w.writeListF (some i) q = some (w.setElem i { e with list := q }) := by
  simp [World.writeListF, h]

theorem lt_of_elem {w : World T} {i : Nat} {e : GoElem T}
    (h : w.elem i = some e) : i < w.elems.length :=
  (List.getElem?_eq_some.mp h).1

/-- A chain survives a relation change that preserves every adjacent
pair: sources of links lie in `l.dropLast`, targets in `l.tail`. -/
theorem chain'_imp_within {α : Type} {R S : α → α → Prop} :
    ∀ (l : List α), List.Chain' R l →
      (∀ a b, a ∈ l.dropLast → b ∈ l.tail → R a b → S a b) →
      List.Chain' S l
  | [], _, _ => List.chain'_nil
  | [a], _, _ => List.chain'_singleton a
  | a :: b :: l, h, himp => by
    rw [List.chain'_cons] at h ⊢
    refine ⟨himp a b ?_ ?_ h.1, chain'_imp_within (b :: l) h.2 ?_⟩
    · simp
    · simp
    · intro x y hx hy hr
      refine himp x y ?_ ?_ hr
      · rw [List.dropLast_cons₂]
        exact List.mem_cons_of_mem a hx
      · exact List.mem_cons_of_mem b hy

theorem ring_last_link {w : World T} {root : Nat} {eids : List Nat}
    (h : Ring w root eids) :
    linkRel w ((root :: eids).getLast (by simp)) root := by
  have h' : List.Chain' (linkRel w) ((root :: eids) ++ [root]) := h
  rcases List.chain'_append.mp h' with ⟨-, -, hx⟩
  exact hx _ (by rw [List.getLast?_eq_getLast _ (by simp)]; exact Option.mem_def.mpr rfl) root rfl

theorem ring_chain_head {w : World T} {root : Nat} {eids : List Nat}
    (h : Ring w root eids) : List.Chain' (linkRel w) (root :: eids) := by
  have h' : List.Chain' (linkRel w) ((root :: eids) ++ [root]) := h
  exact (List.chain'_append.mp h').1

theorem ring_root_next {w : World T} {root : Nat} {eids : List Nat}
    (h : Ring w root eids) :
    ∃ er f, w.elem root = some er ∧ er.next = some f := by
  cases eids with
  | nil =>
    rcases (List.chain'_cons.mp h).1 with ⟨⟨er, he, hn⟩, -⟩
    exact ⟨er, root, he, hn⟩
  | cons e0 rest =>
    rcases (List.chain'_cons.mp h).1 with ⟨⟨er, he, hn⟩, -⟩
    exact ⟨er, e0, he, hn⟩

theorem readPtr_some {w : World T} {i : Nat} :
    w.readPtr (some i) = w.elem i := by
  simp [World.readPtr]

/-- Execution of `insert e at` when `e`, `at`, and `at.next` are
allocated and `e` is distinct from the two neighbours: returns the final
heap explicitly. -/
theorem insert_exec {w : World T} {lid : Nat} {l : GoList} {e t r : Nat}
    {ze et er : GoElem T}
    (hl : w.list lid = some l)
    (he : w.elem e = some ze)
    (ht : w.elem t = some et)
    (hr : w.elem r = some er)
    (htn : et.next = some r)
    (het : e ≠ t) (her : e ≠ r) :
    ∃ w', insert w lid e (some t) = some (w', e) ∧
      w'.elems.length = w.elems.length ∧
      w'.elem e = some ⟨some r, some t, some lid, ze.value⟩ ∧
      (∀ j, j ≠ e → j ≠ t → j ≠ r → w'.elem j = w.elem j) ∧
      (t ≠ r → w'.elem t = some { et with next := some e } ∧
               w'.elem r = some { er with prev := some e }) ∧
      (t = r → w'.elem t = some ⟨some e, some e, et.list, et.value⟩) ∧
      (∀ lid', lid' ≠ lid → w'.list lid' = w.list lid') ∧
      w'.list lid = some { l with len := l.len + 1 } := by
  unfold insert
  rw [writePrev_eq he]
  simp only [Option.bind_eq_bind, Option.some_bind]
  set w1 := w.setElem e { ze with prev := some t } with hw1
  have ht1 : w1.elem t = some et := by
    rw [hw1, elem_setElem_ne (Ne.symm het)]; exact ht
  have he1 : w1.elem e = some { ze with prev := some t } :=
    elem_setElem_self he
  rw [readPtr_some, ht1]
  simp only [Option.some_bind]
  rw [htn, writeNext_eq he1]
  simp only [Option.some_bind]
  set w2 := w1.setElem e ⟨some r, some t, ze.list, ze.value⟩ with hw2
  have he2 : w2.elem e = some ⟨some r, some t, ze.list, ze.value⟩ :=
    elem_setElem_self he1
  have ht2 : w2.elem t = some et := by
    rw [hw2, elem_setElem_ne (Ne.symm het)]; exact ht1
  rw [he2]
  simp only [Option.some_bind]
  rw [writeNext_eq ht2]
  simp only [Option.some_bind]
  set w3 := w2.setElem t { et with next := some e } with hw3
  have he3 : w3.elem e = some ⟨some r, some t, ze.list, ze.value⟩ := by
    rw [hw3, elem_setElem_ne het]; exact he2
  rw [he3]
  simp only [Option.some_bind]
  by_cases htr : t = r
  · subst htr
    have ht3 : w3.elem t = some { et with next := some e } :=
      elem_setElem_self ht2
    rw [writePrev_eq ht3]
    simp only [Option.some_bind]
    set w4 := w3.setElem t ⟨some e, some e, et.list, et.value⟩ with hw4
    have he4 : w4.elem e = some ⟨some t, some t, ze.list, ze.value⟩ := by
      rw [hw4, elem_setElem_ne het]; exact he3
    rw [writeListF_eq he4]
    simp only [Option.some_bind]
    set w5 := w4.setElem e ⟨some t, some t, some lid, ze.value⟩ with hw5
    have hl5 : w5.list lid = some l := hl
    rw [hl5]
    simp only [Option.some_bind, Option.pure_def]
    refine ⟨_, rfl, ?_, ?_, ?_, ?_, ?_, ?_, ?_⟩
    · simp [World.setList, World.setElem, hw5, hw4, hw3, hw2, hw1]
    · show (w5.setList lid _).elem e = _
      rw [elem_setList, hw5]
      exact elem_setElem_self he4
    · intro j hje hjt _
      show (w5.setList lid _).elem j = _
      rw [elem_setList, hw5, elem_setElem_ne hje, hw4, elem_setElem_ne hjt,
        hw3, elem_setElem_ne hjt, hw2, elem_setElem_ne hje, hw1,
        elem_setElem_ne hje]
    · intro hc; exact absurd rfl hc
    · intro _
      show (w5.setList lid _).elem t = _
      rw [elem_setList, hw5, elem_setElem_ne (Ne.symm het)]
      exact elem_setElem_self ht3
    · intro lid' hlid
      show (w5.setList lid _).list lid' = _
      rw [list_setList_ne hlid]
      rfl
    · exact list_setList_self hl
  · have hr3 : w3.elem r = some er := by
      rw [hw3, elem_setElem_ne (fun hh => htr hh.symm), hw2,
        elem_setElem_ne (Ne.symm her), hw1, elem_setElem_ne (Ne.symm her)]
      exact hr
    rw [writePrev_eq hr3]
    simp only [Option.some_bind]
    set w4 := w3.setElem r { er with prev := some e } with hw4
    have he4 : w4.elem e = some ⟨some r, some t, ze.list, ze.value⟩ := by
      rw [hw4, elem_setElem_ne her]; exact he3
    rw [writeListF_eq he4]
    simp only [Option.some_bind]
    set w5 := w4.setElem e ⟨some r, some t, some lid, ze.value⟩ with hw5
    have hl5 : w5.list lid = some l := hl
    rw [hl5]
    simp only [Option.some_bind, Option.pure_def]
    refine ⟨_, rfl, ?_, ?_, ?_, ?_, ?_, ?_, ?_⟩
    · simp [World.setList, World.setElem, hw5, hw4, hw3, hw2, hw1]
    · show (w5.setList lid _).elem e = _
      rw [elem_setList, hw5]
      exact elem_setElem_self he4
    · intro j hje hjt hjr
      show (w5.setList lid _).elem j = _
      rw [elem_setList, hw5, elem_setElem_ne hje, hw4, elem_setElem_ne hjr,
        hw3, elem_setElem_ne hjt, hw2, elem_setElem_ne hje, hw1,
        elem_setElem_ne hje]
    · intro _
      constructor
      · show (w5.setList lid _).elem t = _
        rw [elem_setList, hw5, elem_setElem_ne (Ne.symm het), hw4,
          elem_setElem_ne htr]
        exact elem_setElem_self ht2
      · show (w5.setList lid _).elem r = _
        rw [elem_setList, hw5, elem_setElem_ne (Ne.symm her), hw4]
        exact elem_setElem_self hr3
    · intro hc; exact absurd hc htr
    · intro lid' hlid
      show (w5.setList lid _).list lid' = _
      rw [list_setList_ne hlid]
      rfl
    · exact list_setList_self hl

/-- Execution of `remove x` when `x` and its two neighbours are allocated
and distinct from `x`: returns the final heap explicitly. -/
theorem remove_exec {w : World T} {lid : Nat} {l : GoList} {x p q : Nat}
    {ex ep eq1 : GoElem T}
    (hl : w.list lid = some l)
    (hx : w.elem x = some ex)
    (hxp : ex.prev = some p)
    (hxq : ex.next = some q)
    (hp : w.elem p = some ep)
    (hq : w.elem q = some eq1)
    (hnxp : x ≠ p) (hnxq : x ≠ q) :
    ∃ w', remove w lid x = some w' ∧
      w'.elems.length = w.elems.length ∧
      w'.elem x = some ⟨none, none, none, ex.value⟩ ∧
      (∀ j, j ≠ x → j ≠ p → j ≠ q → w'.elem j = w.elem j) ∧
      (p ≠ q → w'.elem p = some { ep with next := some q } ∧
               w'.elem q = some { eq1 with prev := some p }) ∧
      (p = q → w'.elem p = some ⟨some q, some p, ep.list, ep.value⟩) ∧
      (∀ lid', lid' ≠ lid → w'.list lid' = w.list lid') ∧
      w'.list lid = some { l with len := l.len - 1 } := by
  unfold remove
  rw [hx]
  simp only [Option.bind_eq_bind, Option.some_bind]
  rw [hxp, hxq, writeNext_eq hp]
  simp only [Option.some_bind]
  set w1 := w.setElem p { ep with next := some q } with hw1
  have hx1 : w1.elem x = some ex := by
    rw [hw1, elem_setElem_ne hnxp]; exact hx
  rw [hx1]
  simp only [Option.some_bind]
  rw [hxp, hxq]
  by_cases hpq : p = q
  · subst hpq
    have hq1 : w1.elem p = some { ep with next := some p } :=
      elem_setElem_self hp
    rw [writePrev_eq hq1]
    simp only [Option.some_bind]
    set w2 := w1.setElem p ⟨some p, some p, ep.list, ep.value⟩ with hw2
    have hx2 : w2.elem x = some ex := by
      rw [hw2, elem_setElem_ne hnxp]; exact hx1
    rw [writeNext_eq hx2]
    simp only [Option.some_bind]
    set w3 := w2.setElem x { ex with next := none } with hw3
    have hx3 : w3.elem x = some { ex with next := none } :=
      elem_setElem_self hx2
    rw [writePrev_eq hx3]
    simp only [Option.some_bind]
    set w4 := w3.setElem x ⟨none, none, ex.list, ex.value⟩ with hw4
    have hx4 : w4.elem x = some ⟨none, none, ex.list, ex.value⟩ :=
      elem_setElem_self hx3
    rw [writeListF_eq hx4]
    simp only [Option.some_bind]
    set w5 := w4.setElem x ⟨none, none, none, ex.value⟩ with hw5
    have hl5 : w5.list lid = some l := hl
    rw [hl5]
    simp only [Option.some_bind, Option.pure_def]
    refine ⟨_, rfl, ?_, ?_, ?_, ?_, ?_, ?_, ?_⟩
    · simp [World.setList, World.setElem, hw5, hw4, hw3, hw2, hw1]
    · show (w5.setList lid _).elem x = _
      rw [elem_setList, hw5]
      exact elem_setElem_self hx4
    · intro j hjx hjp _
      show (w5.setList lid _).elem j = _
      rw [elem_setList, hw5, elem_setElem_ne hjx, hw4, elem_setElem_ne hjx,
        hw3, elem_setElem_ne hjx, hw2, elem_setElem_ne hjp, hw1,
        elem_setElem_ne hjp]
    · intro hc; exact absurd rfl hc
    · intro _
      show (w5.setList lid _).elem p = _
      rw [elem_setList, hw5, elem_setElem_ne (Ne.symm hnxp), hw4,
        elem_setElem_ne (Ne.symm hnxp), hw3, elem_setElem_ne (Ne.symm hnxp)]
      exact elem_setElem_self hq1
    · intro lid' hlid
      show (w5.setList lid _).list lid' = _
      rw [list_setList_ne hlid]
      rfl
    · exact list_setList_self hl
  · have hq1 : w1.elem q = some eq1 := by
      rw [hw1, elem_setElem_ne (fun hh => hpq hh.symm)]; exact hq
    rw [writePrev_eq hq1]
    simp only [Option.some_bind]
    set w2 := w1.setElem q { eq1 with prev := some p } with hw2
    have hx2 : w2.elem x = some ex := by
      rw [hw2, elem_setElem_ne hnxq]; exact hx1
    rw [writeNext_eq hx2]
    simp only [Option.some_bind]
    set w3 := w2.setElem x { ex with next := none } with hw3
    have hx3 : w3.elem x = some { ex with next := none } :=
      elem_setElem_self hx2
    rw [writePrev_eq hx3]
    simp only [Option.some_bind]
    set w4 := w3.setElem x ⟨none, none, ex.list, ex.value⟩ with hw4
    have hx4 : w4.elem x = some ⟨none, none, ex.list, ex.value⟩ :=
      elem_setElem_self hx3
    rw [writeListF_eq hx4]
    simp only [Option.some_bind]
    set w5 := w4.setElem x ⟨none, none, none, ex.value⟩ with hw5
    have hl5 : w5.list lid = some l := hl
    rw [hl5]
    simp only [Option.some_bind, Option.pure_def]
    refine ⟨_, rfl, ?_, ?_, ?_, ?_, ?_, ?_, ?_⟩
    · simp [World.setList, World.setElem, hw5, hw4, hw3, hw2, hw1]
    · show (w5.setList lid _).elem x = _
      rw [elem_setList, hw5]
      exact elem_setElem_self hx4
    · intro j hjx hjp hjq
      show (w5.setList lid _).elem j = _
      rw [elem_setList, hw5, elem_setElem_ne hjx, hw4, elem_setElem_ne hjx,
        hw3, elem_setElem_ne hjx, hw2, elem_setElem_ne hjq, hw1,
        elem_setElem_ne hjp]
    · intro _
      constructor
      · show (w5.setList lid _).elem p = _
        rw [elem_setList, hw5, elem_setElem_ne (Ne.symm hnxp), hw4,
          elem_setElem_ne (Ne.symm hnxp), hw3, elem_setElem_ne (Ne.symm hnxp),
          hw2, elem_setElem_ne hpq]
        exact elem_setElem_self hp
      · show (w5.setList lid _).elem q = _
        rw [elem_setList, hw5, elem_setElem_ne (Ne.symm hnxq), hw4,
          elem_setElem_ne (Ne.symm hnxq), hw3, elem_setElem_ne (Ne.symm hnxq)]
        exact elem_setElem_self hq1
    · intro hc; exact absurd hc hpq
    · intro lid' hlid
      show (w5.setList lid _).list lid' = _
      rw [list_setList_ne hlid]
      rfl
    · exact list_setList_self hl

theorem linkRel_transfer {w w' : World T} {a b : Nat}
    (ha : ∀ ea, w.elem a = some ea → ∃ ea', w'.elem a = some ea' ∧ ea'.next = ea.next)
    (hb : ∀ eb, w.elem b = some eb → ∃ eb', w'.elem b = some eb' ∧ eb'.prev = eb.prev)
    (h : linkRel w a b) : linkRel w' a b := by
  rcases h with ⟨⟨ea, hea, hean⟩, ⟨eb, heb, hebp⟩⟩
  rcases ha ea hea with ⟨ea', hea', hn⟩
  rcases hb eb heb with ⟨eb', heb', hp⟩
  exact ⟨⟨ea', hea', by rw [hn, hean]⟩, ⟨eb', heb', by rw [hp, hebp]⟩⟩

theorem getLast_not_mem_dropLast {α : Type} {l : List α} (h : l.Nodup)
    (hne : l ≠ []) : l.getLast hne ∉ l.dropLast := by
  intro hmem
  have hconcat := List.dropLast_append_getLast hne
  rw [← hconcat, List.nodup_append] at h
  exact h.2.2 hmem (by simp)

/-- PushBack on a well-formed list appends the freshly allocated element
at the tail of the ring and preserves the representation invariant. -/
theorem pushBack_core {w : World T} {lid : Nat} {eids : List Nat} (v : T)
    (h : CoreRep w lid eids) :
    ∃ w' l, w.list lid = some l ∧
      PushBack w lid v = some (w', w.elems.length) ∧
      CoreRep w' lid (eids ++ [w.elems.length]) ∧
      w'.elems.length = w.elems.length + 1 ∧
      w'.list lid = some { l with len := l.len + 1 } ∧
      (∀ lid', lid' ≠ lid → w'.list lid' = w.list lid') ∧
      (∀ j, j ≠ w.elems.length →
        (w'.elem j).map GoElem.value = (w.elem j).map GoElem.value) ∧
      (w'.elem w.elems.length).map GoElem.value = some v := by
  obtain ⟨l, hl, hring, hnodup, hlen, howned, hcomp, re, hre, hreN⟩ := h
  obtain ⟨⟨et, het, hetn⟩, ⟨re2, hre2, hre2p⟩⟩ := ring_last_link hring
  have hre2eq : re = re2 := Option.some.inj (hre.symm.trans hre2)
  rw [← hre2eq] at hre2p
  have hlz : lazyInit w lid = some w := by
    unfold lazyInit
    rw [hl]
    simp only [Option.bind_eq_bind, Option.some_bind]
    rw [hre]
    simp only [Option.some_bind]
    obtain ⟨er, f, her, hf⟩ := ring_root_next hring
    have h4 : re = er := Option.some.inj (hre.symm.trans her)
    rw [← h4] at hf
    rw [if_neg (by simp [hf])]
    rfl
  set tl := (l.root :: eids).getLast (by simp) with htldef
  set n0 := w.elems.length with hn0
  set z : GoElem T := ⟨none, none, none, v⟩ with hz
  set w1 : World T := ⟨w.elems ++ [z], w.lists⟩ with hw1
  have hl1 : w1.list lid = some l := hl
  have hkeep : ∀ j, j < n0 → w1.elem j = w.elem j := by
    intro j hj
    show (w.elems ++ [z])[j]? = _
    exact List.getElem?_append_left hj
  have hnew : w1.elem n0 = some z := by
    show (w.elems ++ [z])[w.elems.length]? = _
    exact List.getElem?_concat_length _ _
  have hlt : ∀ a ∈ l.root :: eids, a < n0 := by
    intro a ha
    rcases List.mem_cons.mp ha with h1 | h1
    · subst h1; exact lt_of_elem hre
    · obtain ⟨e, he, -⟩ := howned a h1
      exact lt_of_elem he
  have htl_mem : tl ∈ l.root :: eids := List.getLast_mem _
  have htl_lt : tl < n0 := hlt tl htl_mem
  have hroot_lt : l.root < n0 := hlt _ (by simp)
  have ht1 : w1.elem tl = some et := by rw [hkeep tl htl_lt]; exact het
  have hr1 : w1.elem l.root = some re := by rw [hkeep _ hroot_lt]; exact hre
  have hnet : n0 ≠ tl := Ne.symm (Nat.ne_of_lt htl_lt)
  have hner : n0 ≠ l.root := Ne.symm (Nat.ne_of_lt hroot_lt)
  obtain ⟨w', hins, hlen', helem_e, hframe, hcase_ne, hcase_eq, hlists_ne,
    hlist_lid⟩ := insert_exec hl1 hnew ht1 hr1 hetn hnet hner
  have hexec : PushBack w lid v = some (w', n0) := by
    unfold PushBack
    rw [hlz]
    simp only [Option.bind_eq_bind, Option.some_bind]
    rw [hl]
    simp only [Option.some_bind]
    rw [hre]
    simp only [Option.some_bind]
    rw [hre2p]
    show insert w1 lid n0 (some tl) = _
    exact hins
  have hcomp_of : ∀ j e', w'.elem j = some e' → j ≠ n0 → j ≠ tl → j ≠ l.root →
      w.elem j = some e' := by
    intro j e' hj hjn hjtl hjr
    rw [hframe j hjn hjtl hjr] at hj
    have hjlt : j < w1.elems.length := lt_of_elem hj
    have hjlt' : j < n0 + 1 := by
      simpa [hw1, hz, List.length_append] using hjlt
    have hjlt2 : j < n0 := by omega
    rw [hkeep j hjlt2] at hj
    exact hj
  refine ⟨w', l, hl, hexec, ?_, ?_, hlist_lid, hlists_ne, ?_, ?_⟩
  · -- CoreRep of the new world
    refine ⟨{ l with len := l.len + 1 }, hlist_lid, ?_, ?_, ?_, ?_, ?_, ?_⟩
    · -- Ring
      show List.Chain' (linkRel w') (l.root :: (eids ++ [n0]) ++ [l.root])
      have hshape : l.root :: (eids ++ [n0]) ++ [l.root] =
          (l.root :: eids) ++ [n0, l.root] := by simp
      rw [hshape]
      refine List.chain'_append.mpr ⟨?_, ?_, ?_⟩
      · -- old chain survives
        refine chain'_imp_within _ (ring_chain_head hring) ?_
        intro a b ha hb hab
        have hatl : a ≠ tl := by
          intro hcontra
          exact getLast_not_mem_dropLast hnodup (by simp) (hcontra ▸ ha)
        have han : a ≠ n0 :=
          Nat.ne_of_lt (hlt a (List.mem_of_mem_dropLast ha))
        have hbroot : b ≠ l.root := by
          intro hcontra
          rw [List.nodup_cons] at hnodup
          exact hnodup.1 (hcontra ▸ hb)
        have hbn : b ≠ n0 := Nat.ne_of_lt (hlt b (List.mem_cons_of_mem _ hb))
        refine linkRel_transfer ?_ ?_ hab
        · intro ea hea
          by_cases har : a = l.root
          · have htlne : tl ≠ l.root := fun hh => hatl (har.trans hh.symm)
            have h5 : re = ea := Option.some.inj (hre.symm.trans (har ▸ hea))
            rw [har]
            exact ⟨_, (hcase_ne htlne).2, by rw [← h5]⟩
          · have halt : a < n0 := hlt a (List.mem_of_mem_dropLast ha)
            exact ⟨ea, by rw [hframe a han hatl har, hkeep a halt]; exact hea,
              rfl⟩
        · intro eb heb
          by_cases hbt : b = tl
          · rw [hbt] at heb hbroot
            rw [hbt]
            have h5 : et = eb := Option.some.inj (het.symm.trans heb)
            exact ⟨_, (hcase_ne hbroot).1, by rw [← h5]⟩
          · have hblt : b < n0 := hlt b (List.mem_cons_of_mem _ hb)
            exact ⟨eb, by rw [hframe b hbn hbt hbroot, hkeep b hblt]; exact heb,
              rfl⟩
      · -- the two new links at the end
        refine List.chain'_cons.mpr ⟨?_, List.chain'_singleton _⟩
        constructor
        · exact ⟨_, helem_e, rfl⟩
        · by_cases htlr : tl = l.root
          · refine ⟨⟨some n0, some n0, et.list, et.value⟩, ?_, rfl⟩
            rw [← htlr]
            exact hcase_eq htlr
          · exact ⟨_, (hcase_ne htlr).2, rfl⟩
      · -- boundary link: tail to fresh element
        intro x hx y hy
        rw [List.getLast?_eq_getLast _ (by simp)] at hx
        have hx' : tl = x := by simpa using hx
        have hy' : n0 = y := by simpa using hy
        rw [← hx', ← hy']
        constructor
        · by_cases htlr : tl = l.root
          · exact ⟨_, hcase_eq htlr, rfl⟩
          · exact ⟨_, (hcase_ne htlr).1, rfl⟩
        · exact ⟨_, helem_e, rfl⟩
    · -- Nodup
      show (l.root :: (eids ++ [n0])).Nodup
      have hshape : l.root :: (eids ++ [n0]) = (l.root :: eids) ++ [n0] := by
        simp
      rw [hshape, List.nodup_append]
      refine ⟨hnodup, List.nodup_singleton _, ?_⟩
      intro a ha ha'
      have h1 : a = n0 := by simpa using ha'
      exact absurd (h1 ▸ hlt a ha) (by omega)
    · -- length counter
      show l.len + 1 = ((eids ++ [n0]).length : Int)
      rw [hlen]
      simp [List.length_append]
    · -- ownership of ring elements
      intro a ha
      rcases List.mem_append.mp ha with h1 | h1
      · obtain ⟨ea, hea, healist⟩ := howned a h1
        have har : a ≠ l.root := by
          rw [List.nodup_cons] at hnodup
          intro hcontra
          exact hnodup.1 (hcontra ▸ h1)
        by_cases hat : a = tl
        · rw [hat] at hea har
          rw [hat]
          have h5 : et = ea := Option.some.inj (het.symm.trans hea)
          refine ⟨_, (hcase_ne har).1, ?_⟩
          show et.list = some lid
          rw [h5]; exact healist
        · have han : a ≠ n0 := Nat.ne_of_lt (hlt a (List.mem_cons_of_mem _ h1))
          have halt : a < n0 := hlt a (List.mem_cons_of_mem _ h1)
          exact ⟨ea, by rw [hframe a han hat har, hkeep a halt]; exact hea,
            healist⟩
      · have h2 : a = n0 := by simpa using h1
        rw [h2]
        exact ⟨_, helem_e, rfl⟩
    · -- ownership completeness
      intro j e' hj hjl
      by_cases hjn : j = n0
      · exact List.mem_append.mpr (Or.inr (by simp [hjn]))
      · refine List.mem_append.mpr (Or.inl ?_)
        by_cases hjt : j = tl
        · rw [hjt] at hj
          rw [hjt]
          by_cases htlr : tl = l.root
          · exfalso
            have h6 : e' = ⟨some n0, some n0, et.list, et.value⟩ :=
              Option.some.inj (hj.symm.trans (hcase_eq htlr))
            have h7 : et = re := by
              rw [htlr] at het
              exact Option.some.inj (het.symm.trans hre)
            rw [h6] at hjl
            simp only at hjl
            rw [h7, hreN] at hjl
            exact Option.noConfusion hjl
          · have h6 : e' = { et with next := some n0 } :=
              Option.some.inj (hj.symm.trans (hcase_ne htlr).1)
            have h7 : et.list = some lid := by
              rw [h6] at hjl
              simpa using hjl
            exact hcomp tl et het h7
        · by_cases hjr : j = l.root
          · exfalso
            rw [hjr] at hj
            have hroot' : ∃ e0, w'.elem l.root = some e0 ∧ e0.list = re.list := by
              by_cases htlr : tl = l.root
              · refine ⟨⟨some n0, some n0, et.list, et.value⟩, ?_, ?_⟩
                · rw [← htlr]; exact hcase_eq htlr
                · have h7 : et = re := by
                    rw [htlr] at het
                    exact Option.some.inj (het.symm.trans hre)
                  simp [h7]
              · exact ⟨_, (hcase_ne htlr).2, rfl⟩
            obtain ⟨e0, he0, he0l⟩ := hroot'
            have h6 : e' = e0 := Option.some.inj (hj.symm.trans he0)
            rw [h6, he0l, hreN] at hjl
            exact Option.noConfusion hjl
          · exact hcomp j e' (hcomp_of j e' hj hjn hjt hjr) hjl
    · -- sentinel ownership
      show ∃ re', w'.elem l.root = some re' ∧ re'.list = none
      by_cases htlr : tl = l.root
      · refine ⟨⟨some n0, some n0, et.list, et.value⟩, ?_, ?_⟩
        · rw [← htlr]; exact hcase_eq htlr
        · have h7 : et = re := by
            rw [htlr] at het
            exact Option.some.inj (het.symm.trans hre)
          simp [h7, hreN]
      · refine ⟨_, (hcase_ne htlr).2, ?_⟩
        simp [hreN]
  · -- heap grows by one
    rw [hlen']
    simp [hw1, hz, List.length_append]
  · -- values of all other ids unchanged
    intro j hjn
    by_cases hjt : j = tl
    · rw [hjt]
      by_cases htlr : tl = l.root
      · rw [hcase_eq htlr, het]
        rfl
      · rw [(hcase_ne htlr).1, het]
        rfl
    · by_cases hjr : j = l.root
      · rw [hjr]
        have htlne : tl ≠ l.root := fun hh => hjt (hjr.trans hh.symm)
        rw [(hcase_ne htlne).2, hre]
        rfl
      · rw [hframe j hjn hjt hjr]
        rcases Nat.lt_or_ge j n0 with h1 | h1
        · rw [hkeep j h1]
        · have h2 : j ≥ n0 + 1 := by omega
          have h3 : w1.elem j = none := by
            show (w.elems ++ [z])[j]? = none
            refine List.getElem?_eq_none ?_
            simpa [List.length_append] using h2
          have h4 : w.elem j = none :=
            List.getElem?_eq_none (by omega)
          rw [h3, h4]
  · -- value of the fresh element
    rw [helem_e]
    rfl

/-- Remove on an element that does not belong to list `lid` is a pure
no-op that still returns the element's value. -/
theorem Remove_foreign {w : World T} {lid : Nat} {i : Nat} {e : GoElem T}
    (he : w.elem i = some e) (hne : e.list ≠ some lid) :
    Remove w lid (some i) = some (w, e.value) := by
  unfold Remove
  simp only [Option.bind_eq_bind, Option.some_bind]
  rw [he]
  simp only [Option.some_bind]
  rw [if_neg hne]
  simp only [Option.pure_def, Option.some_bind]
  rw [he]
  simp only [Option.some_bind]

/-- Remove on a ring element of a well-formed list unlinks it, repairs
the neighbours, invalidates the handle, and preserves the representation
invariant on the remaining elements. -/
theorem remove_core {w : World T} {lid : Nat} {l1 l2 : List Nat} {x : Nat}
    (h : CoreRep w lid (l1 ++ x :: l2)) :
    ∃ w' l ex, w.list lid = some l ∧ w.elem x = some ex ∧
      ex.list = some lid ∧
      Remove w lid (some x) = some (w', ex.value) ∧
      CoreRep w' lid (l1 ++ l2) ∧
      w'.elems.length = w.elems.length ∧
      w'.list lid = some { l with len := l.len - 1 } ∧
      (∀ lid', lid' ≠ lid → w'.list lid' = w.list lid') ∧
      (∀ j, (w'.elem j).map GoElem.value = (w.elem j).map GoElem.value) ∧
      w'.elem x = some ⟨none, none, none, ex.value⟩ := by
  obtain ⟨l, hl, hring, hnodup, hlen, howned, hcomp, re, hre, hreN⟩ := h
  obtain ⟨hrootmem, hnodE⟩ := List.nodup_cons.mp hnodup
  obtain ⟨hnodl1, hnodxl2, hdisj⟩ := List.nodup_append.mp hnodE
  obtain ⟨hxnotl2, hnodl2⟩ := List.nodup_cons.mp hnodxl2
  have hxroot : x ≠ l.root := by
    intro hh
    exact hrootmem (hh ▸ (by simp : x ∈ l1 ++ x :: l2))
  have hxl1 : x ∉ l1 := fun hh => hdisj hh (by simp)
  have hrl1 : l.root ∉ l1 := fun hh => hrootmem (List.mem_append.mpr (Or.inl hh))
  have hrl2 : l.root ∉ l2 := fun hh =>
    hrootmem (List.mem_append.mpr (Or.inr (List.mem_cons_of_mem _ hh)))
  have hl1l2 : ∀ y ∈ l1, y ∉ l2 := fun y hy hh =>
    hdisj hy (List.mem_cons_of_mem _ hh)
  have hnodA : (l.root :: l1).Nodup := List.nodup_cons.mpr ⟨hrl1, hnodl1⟩
  have hnodB : (l2 ++ [l.root]).Nodup := by
    rw [List.nodup_append]
    refine ⟨hnodl2, List.nodup_singleton _, ?_⟩
    intro y hy hy'
    have h1 : y = l.root := by simpa using hy'
    exact hrl2 (h1 ▸ hy)
  have hrc : List.Chain' (linkRel w) ((l.root :: l1) ++ ([x] ++ (l2 ++ [l.root]))) := by
    have hshape : l.root :: (l1 ++ x :: l2) ++ [l.root] =
        (l.root :: l1) ++ ([x] ++ (l2 ++ [l.root])) := by simp
    have h0 : List.Chain' (linkRel w) (l.root :: (l1 ++ x :: l2) ++ [l.root]) :=
      hring
    rw [hshape] at h0
    exact h0
  obtain ⟨hchA, hchxB, hboundA⟩ := List.chain'_append.mp hrc
  have hchxB' : List.Chain' (linkRel w) (x :: (l2 ++ [l.root])) := hchxB
  obtain ⟨hlinkxq', hchB⟩ := List.chain'_cons'.mp hchxB'
  set p := (l.root :: l1).getLast (by simp) with hpdef
  have hBne : l2 ++ [l.root] ≠ [] := by simp
  set q := (l2 ++ [l.root]).head hBne with hqdef
  have hpA : p ∈ l.root :: l1 := List.getLast_mem _
  have hqB : q ∈ l2 ++ [l.root] := List.head_mem _
  have hlink_px : linkRel w p x := by
    refine hboundA p ?_ x rfl
    rw [List.getLast?_eq_getLast _ (by simp)]
    exact Option.mem_def.mpr rfl
  have hlink_xq : linkRel w x q := by
    refine hlinkxq' q ?_
    rw [List.head?_eq_head hBne]
    exact Option.mem_def.mpr rfl
  obtain ⟨⟨ep0, hp, hpn⟩, ⟨ex0, hex0, hex0p⟩⟩ := hlink_px
  obtain ⟨⟨ex1, hex1, hex1n⟩, ⟨eq0, hq, hqp⟩⟩ := hlink_xq
  obtain ⟨ex, hex, hexl⟩ := howned x (by simp)
  have hxp : ex.prev = some p := by
    have h1 : ex0 = ex := Option.some.inj (hex0.symm.trans hex)
    rw [← h1]; exact hex0p
  have hxq : ex.next = some q := by
    have h1 : ex1 = ex := Option.some.inj (hex1.symm.trans hex)
    rw [← h1]; exact hex1n
  have hnxp : x ≠ p := by
    intro hh
    rcases List.mem_cons.mp hpA with h1 | h1
    · exact hxroot (hh.trans h1)
    · exact hxl1 (by rw [hh]; exact h1)
  have hnxq : x ≠ q := by
    intro hh
    rcases List.mem_append.mp hqB with h1 | h1
    · exact hxnotl2 (by rw [hh]; exact h1)
    · have h2 : q = l.root := by simpa using h1
      exact hxroot (hh.trans h2)
  obtain ⟨w', hrm, hlen', hxinv, hframe, hcase_ne, hcase_eq, hlists_ne,
    hlist_lid⟩ := remove_exec hl hex hxp hxq hp hq hnxp hnxq
  have hexecR : Remove w lid (some x) = some (w', ex.value) := by
    unfold Remove
    simp only [Option.bind_eq_bind, Option.some_bind]
    rw [hex]
    simp only [Option.some_bind]
    rw [if_pos hexl, hrm]
    simp only [Option.some_bind]
    rw [hxinv]
    simp only [Option.some_bind, Option.pure_def]
  have hnextpres : ∀ a, a ≠ x → a ≠ p → ∀ ea, w.elem a = some ea →
      ∃ ea', w'.elem a = some ea' ∧ ea'.next = ea.next := by
    intro a hax hap ea hea
    by_cases haq : a = q
    · have hpq : p ≠ q := fun hh => hap (haq.trans hh.symm)
      rw [haq] at hea
      rw [haq]
      have h5 : eq0 = ea := Option.some.inj (hq.symm.trans hea)
      exact ⟨_, (hcase_ne hpq).2, by rw [← h5]⟩
    · exact ⟨ea, by rw [hframe a hax hap haq]; exact hea, rfl⟩
  have hprevpres : ∀ b, b ≠ x → b ≠ q → ∀ eb, w.elem b = some eb →
      ∃ eb', w'.elem b = some eb' ∧ eb'.prev = eb.prev := by
    intro b hbx hbq eb heb
    by_cases hbp : b = p
    · have hpq : p ≠ q := fun hh => hbq (hbp.trans hh)
      rw [hbp] at heb
      rw [hbp]
      have h5 : ep0 = eb := Option.some.inj (hp.symm.trans heb)
      exact ⟨_, (hcase_ne hpq).1, by rw [← h5]⟩
    · exact ⟨eb, by rw [hframe b hbx hbp hbq]; exact heb, rfl⟩
  have hvlpres : ∀ a, a ≠ x → ∀ ea, w.elem a = some ea →
      ∃ ea', w'.elem a = some ea' ∧ ea'.list = ea.list ∧
        ea'.value = ea.value := by
    intro a hax ea hea
    by_cases hap : a = p
    · rw [hap] at hea
      rw [hap]
      have h5 : ep0 = ea := Option.some.inj (hp.symm.trans hea)
      by_cases hpq : p = q
      · exact ⟨_, hcase_eq hpq, by rw [← h5], by rw [← h5]⟩
      · exact ⟨_, (hcase_ne hpq).1, by rw [← h5], by rw [← h5]⟩
    · by_cases haq : a = q
      · have hpq : p ≠ q := fun hh => hap (haq.trans hh.symm)
        rw [haq] at hea
        rw [haq]
        have h5 : eq0 = ea := Option.some.inj (hq.symm.trans hea)
        exact ⟨_, (hcase_ne hpq).2, by rw [← h5], by rw [← h5]⟩
      · exact ⟨ea, by rw [hframe a hax hap haq]; exact hea, rfl, rfl⟩
  have hmem_drop : ∀ j, j ∈ l1 ++ x :: l2 → j ≠ x → j ∈ l1 ++ l2 := by
    intro j hj hjx
    rcases List.mem_append.mp hj with h1 | h1
    · exact List.mem_append.mpr (Or.inl h1)
    · rcases List.mem_cons.mp h1 with h2 | h2
      · exact absurd h2 hjx
      · exact List.mem_append.mpr (Or.inr h2)
  refine ⟨w', l, ex, hl, hex, hexl, hexecR, ?_, hlen', hlist_lid, hlists_ne,
    ?_, hxinv⟩
  · -- CoreRep of the new world
    refine ⟨{ l with len := l.len - 1 }, hlist_lid, ?_, ?_, ?_, ?_, ?_, ?_⟩
    · -- Ring
      show List.Chain' (linkRel w') (l.root :: (l1 ++ l2) ++ [l.root])
      have hshape : l.root :: (l1 ++ l2) ++ [l.root] =
          (l.root :: l1) ++ (l2 ++ [l.root]) := by simp
      rw [hshape]
      refine List.chain'_append.mpr ⟨?_, ?_, ?_⟩
      · -- chain on the prefix survives
        refine chain'_imp_within _ hchA ?_
        intro a b ha hb hab
        have hap : a ≠ p := fun hh =>
          getLast_not_mem_dropLast hnodA (by simp) (hh ▸ ha)
        have hax : a ≠ x := by
          intro hh
          rcases List.mem_cons.mp (List.mem_of_mem_dropLast ha) with h1 | h1
          · exact hxroot (hh.symm.trans h1)
          · exact hxl1 (hh ▸ h1)
        have hbx : b ≠ x := fun hh => hxl1 (hh ▸ hb)
        have hbq : b ≠ q := by
          intro hh
          rcases List.mem_append.mp hqB with h1 | h1
          · exact hl1l2 b hb (hh.symm ▸ h1)
          · have h2 : q = l.root := by simpa using h1
            exact hrl1 ((hh.trans h2) ▸ hb)
        exact linkRel_transfer (fun ea hea => hnextpres a hax hap ea hea)
          (fun eb heb => hprevpres b hbx hbq eb heb) hab
      · -- chain on the suffix survives
        refine chain'_imp_within _ hchB ?_
        intro a b ha hb hab
        have hal2 : a ∈ l2 := by
          rw [List.dropLast_concat] at ha
          exact ha
        have hax : a ≠ x := fun hh => hxnotl2 (hh ▸ hal2)
        have hap : a ≠ p := by
          intro hh
          rcases List.mem_cons.mp hpA with h1 | h1
          · exact hrl2 ((hh.trans h1) ▸ hal2)
          · exact hl1l2 p h1 (hh ▸ hal2)
        have hbB : b ∈ l2 ++ [l.root] := List.mem_of_mem_tail hb
        have hbx : b ≠ x := by
          intro hh
          rcases List.mem_append.mp hbB with h1 | h1
          · exact hxnotl2 (hh ▸ h1)
          · exact hxroot (hh.symm.trans (by simpa using h1))
        have hbq : b ≠ q := by
          intro hh
          have h1 : q ∉ (l2 ++ [l.root]).tail := by
            have h2 := List.head_cons_tail (l2 ++ [l.root]) hBne
            have h3 := hnodB
            rw [← h2, List.nodup_cons] at h3
            exact h3.1
          exact h1 (hh ▸ hb)
        exact linkRel_transfer (fun ea hea => hnextpres a hax hap ea hea)
          (fun eb heb => hprevpres b hbx hbq eb heb) hab
      · -- boundary: predecessor now linked to successor
        intro a ha y hy
        rw [List.getLast?_eq_getLast _ (by simp)] at ha
        rw [List.head?_eq_head hBne] at hy
        have ha' : p = a := by simpa using ha
        have hy' : q = y := by simpa using hy
        rw [← ha', ← hy']
        by_cases hpq : p = q
        · have h5 := hcase_eq hpq
          constructor
          · exact ⟨_, h5, rfl⟩
          · rw [← hpq]
            exact ⟨_, h5, rfl⟩
        · constructor
          · exact ⟨_, (hcase_ne hpq).1, rfl⟩
          · exact ⟨_, (hcase_ne hpq).2, rfl⟩
    · -- Nodup
      show (l.root :: (l1 ++ l2)).Nodup
      have hsub : (l.root :: (l1 ++ l2)).Sublist (l.root :: (l1 ++ x :: l2)) :=
        List.Sublist.cons₂ _
          (List.Sublist.append (List.Sublist.refl l1)
            (List.sublist_cons_self x l2))
      exact hsub.nodup hnodup
    · -- length counter
      show l.len - 1 = ((l1 ++ l2).length : Int)
      rw [hlen]
      simp [List.length_append]
      ring
    · -- ownership of remaining ring elements
      intro a ha
      have haE : a ∈ l1 ++ x :: l2 := by
        rcases List.mem_append.mp ha with h1 | h1
        · exact List.mem_append.mpr (Or.inl h1)
        · exact List.mem_append.mpr (Or.inr (List.mem_cons_of_mem _ h1))
      have hax : a ≠ x := by
        intro hh
        rcases List.mem_append.mp ha with h1 | h1
        · exact hxl1 (hh ▸ h1)
        · exact hxnotl2 (hh ▸ h1)
      obtain ⟨ea, hea, healist⟩ := howned a haE
      obtain ⟨ea', hea', hlist', -⟩ := hvlpres a hax ea hea
      exact ⟨ea', hea', by rw [hlist']; exact healist⟩
    · -- ownership completeness
      intro j e' hj hjl
      by_cases hjx : j = x
      · exfalso
        rw [hjx] at hj
        have h6 : e' = ⟨none, none, none, ex.value⟩ :=
          Option.some.inj (hj.symm.trans hxinv)
        rw [h6] at hjl
        exact Option.noConfusion hjl
      · have hback : ∃ e0, w.elem j = some e0 ∧ e0.list = e'.list := by
          by_cases hjp : j = p
          · rw [hjp]
            by_cases hpq : p = q
            · have h6 : e' = ⟨some q, some p, ep0.list, ep0.value⟩ :=
                Option.some.inj ((hjp ▸ hj).symm.trans (hcase_eq hpq))
              exact ⟨ep0, hp, by rw [h6]⟩
            · have h6 : e' = { ep0 with next := some q } :=
                Option.some.inj ((hjp ▸ hj).symm.trans (hcase_ne hpq).1)
              exact ⟨ep0, hp, by rw [h6]⟩
          · by_cases hjq : j = q
            · have hpq : p ≠ q := fun hh => hjp (hjq.trans hh.symm)
              rw [hjq]
              have h6 : e' = { eq0 with prev := some p } :=
                Option.some.inj ((hjq ▸ hj).symm.trans (hcase_ne hpq).2)
              exact ⟨eq0, hq, by rw [h6]⟩
            · refine ⟨e', ?_, rfl⟩
              rw [← hframe j hjx hjp hjq]
              exact hj
        obtain ⟨e0, he0, he0l⟩ := hback
        exact hmem_drop j (hcomp j e0 he0 (by rw [he0l]; exact hjl)) hjx
    · -- sentinel ownership
      show ∃ re', w'.elem l.root = some re' ∧ re'.list = none
      obtain ⟨re', hre', hrl', -⟩ := hvlpres l.root (Ne.symm hxroot) re hre
      exact ⟨re', hre', by rw [hrl']; exact hreN⟩
  · -- values unchanged everywhere
    intro j
    by_cases hjx : j = x
    · rw [hjx, hxinv, hex]
      rfl
    · cases hwj : w.elem j with
      | none =>
        have hjp : j ≠ p := by
          intro hh; rw [hh, hp] at hwj; exact Option.noConfusion hwj
        have hjq : j ≠ q := by
          intro hh; rw [hh, hq] at hwj; exact Option.noConfusion hwj
        rw [hframe j hjx hjp hjq, hwj]
      | some ea =>
        obtain ⟨ea', hea', -, hv'⟩ := hvlpres j hjx ea hwj
        rw [hea']
        simp [hv']

theorem Front_core {w : World T} {lid : Nat} {eids : List Nat}
    (h : CoreRep w lid eids) : Front w lid = some eids.head? := by
  obtain ⟨l, hl, hring, hnodup, hlen, howned, hcomp, re, hre, hreN⟩ := h
  unfold Front
  rw [hl]
  simp only [Option.bind_eq_bind, Option.some_bind]
  cases eids with
  | nil =>
    rw [if_pos (by simpa using hlen)]
    rfl
  | cons e0 rest =>
    rw [if_neg (by rw [hlen]; simp; omega)]
    rw [hre]
    simp only [Option.some_bind]
    rcases (List.chain'_cons.mp hring).1 with ⟨⟨er, her, hern⟩, -⟩
    have h5 : re = er := Option.some.inj (hre.symm.trans her)
    rw [h5, hern]
    rfl

/-- The successor link of a ring member: its `next` pointer is the head
of the rest of the ring (the sentinel when it is the last member). -/
theorem ring_succ_link {w : World T} {root x : Nat} {l1 l2 : List Nat}
    (hring : Ring w root (l1 ++ x :: l2)) :
    ∃ ex, w.elem x = some ex ∧
      ex.next = some ((l2 ++ [root]).head (by simp)) := by
  have hrc : List.Chain' (linkRel w)
      ((root :: l1) ++ ([x] ++ (l2 ++ [root]))) := by
    have hshape : root :: (l1 ++ x :: l2) ++ [root] =
        (root :: l1) ++ ([x] ++ (l2 ++ [root])) := by simp
    have h0 : List.Chain' (linkRel w) (root :: (l1 ++ x :: l2) ++ [root]) :=
      hring
    rw [hshape] at h0
    exact h0
  obtain ⟨-, hchxB, -⟩ := List.chain'_append.mp hrc
  have hchxB' : List.Chain' (linkRel w) (x :: (l2 ++ [root])) := hchxB
  obtain ⟨hlink, -⟩ := List.chain'_cons'.mp hchxB'
  have hl2 : linkRel w x ((l2 ++ [root]).head (by simp)) := by
    refine hlink _ ?_
    rw [List.head?_eq_head (by simp)]
    exact Option.mem_def.mpr rfl
  rcases hl2 with ⟨⟨ex, hex, hexn⟩, -⟩
  exact ⟨ex, hex, hexn⟩

theorem Next_core {w : World T} {lid : Nat} {l1 l2 : List Nat} {x : Nat}
    (h : CoreRep w lid (l1 ++ x :: l2)) :
    Next w x = some l2.head? := by
  obtain ⟨l, hl, hring, hnodup, hlen, howned, hcomp, re, hre, hreN⟩ := h
  obtain ⟨ex, hex, hexl⟩ := howned x (by simp)
  obtain ⟨ex2, hex2, hexn⟩ := ring_succ_link hring
  have h5 : ex = ex2 := Option.some.inj (hex.symm.trans hex2)
  rw [h5] at hexl
  unfold Next
  rw [hex2]
  simp only [Option.bind_eq_bind, Option.some_bind]
  rw [hexl]
  simp only []
  rw [hl]
  simp only [Option.some_bind]
  cases l2 with
  | nil =>
    have hq : ex2.next = some l.root := by simpa using hexn
    rw [if_neg (by simp [hq])]
    rfl
  | cons q0 rest2 =>
    have hq : ex2.next = some q0 := by simpa using hexn
    have hq0root : q0 ≠ l.root := by
      intro hh
      obtain ⟨hrootmem, -⟩ := List.nodup_cons.mp hnodup
      exact hrootmem (List.mem_append.mpr (Or.inr
        (List.mem_cons_of_mem _ (by rw [← hh]; simp))))
    rw [if_pos (by simp [hq, hq0root])]
    rw [hq]
    rfl

/-- Following raw next pointers around a well-formed ring: after `k` steps
from the sentinel one sits at position `k` of the closed path. -/
theorem chain_ring {w : World T} {root : Nat} {eids : List Nat}
    (hring : Ring w root eids) :
    ∀ k, k < eids.length + 2 →
      chain w root k = some (((root :: eids) ++ [root]).getD k 0) := by
  intro k
  induction k with
  | zero => intro _; rfl
  | succ k ih =>
    intro hk
    have hk' : k < eids.length + 2 := by omega
    have hkl : k < ((root :: eids) ++ [root]).length - 1 := by
      simp [List.length_append]
      omega
    have hlink := List.chain'_iff_get.mp hring k (by
      simpa [List.length_append] using hkl)
    rcases hlink with ⟨⟨ea, hea, hean⟩, -⟩
    show (do
      let i ← chain w root k
      let e ← w.elem i
      e.next) = _
    rw [ih hk']
    simp only [Option.bind_eq_bind, Option.some_bind]
    have hgd : ((root :: eids) ++ [root]).getD k 0 =
        ((root :: eids) ++ [root]).get ⟨k, by
          simp [List.length_append]; omega⟩ := by
      rw [List.get_eq_getElem, List.getD_eq_getElem _ _ (by
        simp [List.length_append]; omega)]
    rw [hgd, hea]
    simp only [Option.some_bind]
    rw [hean]
    congr 1
    rw [List.get_eq_getElem, List.getD_eq_getElem _ _ (by
      simp [List.length_append]; omega)]

theorem NewList_empty_eq (d : T) :
    NewList (⟨[], []⟩ : World T) d = some (newListWorld d, 0) := rfl

theorem corerep_newListWorld (d : T) : CoreRep (newListWorld d) 0 [] := by
  refine ⟨⟨0, 0⟩, rfl, ?_, by simp, rfl, by simp, ?_, ?_⟩
  · show List.Chain' (linkRel (newListWorld d)) [0, 0]
    refine List.chain'_cons.mpr ⟨⟨⟨_, rfl, rfl⟩, ⟨_, rfl, rfl⟩⟩,
      List.chain'_singleton _⟩
  · intro j e hj hjl
    have hjlt : j < 1 := lt_of_elem hj
    interval_cases j
    · have h1 : e = ⟨some 0, some 0, none, d⟩ := Option.some.inj hj.symm
      rw [h1] at hjl
      exact Option.noConfusion hjl
  · exact ⟨⟨some 0, some 0, none, d⟩, rfl, rfl⟩

/-- The list invariant: every reachable list world satisfies the ring
representation invariant for some sequence of element ids. -/
theorem lreach_corerep {d : T} {w : World T} {lid : Nat}
    (h : LReach d w lid) : ∃ eids, CoreRep w lid eids := by
  induction h with
  | base => exact ⟨[], corerep_newListWorld d⟩
  | push hr hstep ih =>
    obtain ⟨eids, hrep⟩ := ih
    obtain ⟨w2, l, -, hexec, hrep', -⟩ := pushBack_core _ hrep
    have h5 := congrArg (Option.map Prod.fst) (hexec.symm.trans hstep)
    simp only [Option.map_some'] at h5
    have h6 := Option.some.inj h5
    exact ⟨_, h6 ▸ hrep'⟩
  | rem hr he hel hstep ih =>
    obtain ⟨eids, hrep⟩ := ih
    rename_i w0 lid0 i e w' val
    have hmem : i ∈ eids := by
      obtain ⟨l, -, -, -, -, -, hcomp, -⟩ := hrep
      exact hcomp i e he hel
    obtain ⟨s, t, hst⟩ := List.append_of_mem hmem
    rw [hst] at hrep
    obtain ⟨w2, l, ex, -, -, -, hexec, hrep', -⟩ := remove_core hrep
    have h5 := congrArg (Option.map Prod.fst) (hexec.symm.trans hstep)
    simp only [Option.map_some'] at h5
    have h6 := Option.some.inj h5
    exact ⟨_, h6 ▸ hrep'⟩

theorem mapGet_mapSet_self (m : List (K × Nat)) (k : K) (pid : Nat) :
    mapGet (mapSet m k pid) k = some pid := by
  induction m with
  | nil => simp [mapGet, mapSet]
  | cons kv rest ih =>
    by_cases h : kv.1 = k
    · simp [mapSet, mapGet, h]
    · simpa [mapSet, mapGet, h] using ih

theorem mapGet_mapSet_ne (m : List (K × Nat)) {k k' : K} (pid : Nat)
    (h : k' ≠ k) : mapGet (mapSet m k pid) k' = mapGet m k' := by
  have h' : ¬k = k' := fun hh => h hh.symm
  induction m with
  | nil => simp [mapGet, mapSet, h']
  | cons kv rest ih =>
    by_cases h1 : kv.1 = k
    · simp [mapSet, mapGet, h1, h']
    · by_cases h2 : kv.1 = k'
      · simp [mapSet, mapGet, h1, h2, h]
      · simpa [mapSet, mapGet, h1, h2] using ih

theorem mapGet_mapDel_self (m : List (K × Nat)) (k : K) :
    mapGet (mapDel m k) k = none := by
  induction m with
  | nil => rfl
  | cons kv rest ih =>
    unfold mapDel
    rw [List.filter_cons]
    by_cases h : kv.1 = k
    · rw [if_neg (by simp [h])]
      exact ih
    · rw [if_pos (by simp [h])]
      have hred : mapGet (kv :: mapDel rest k) k = mapGet (mapDel rest k) k := by
        simp [mapGet, h]
      exact hred.trans ih

theorem mapGet_mapDel_ne (m : List (K × Nat)) {k k' : K} (h : k' ≠ k) :
    mapGet (mapDel m k) k' = mapGet m k' := by
  induction m with
  | nil => rfl
  | cons kv rest ih =>
    unfold mapDel
    rw [List.filter_cons]
    by_cases h1 : kv.1 = k
    · have h2 : ¬kv.1 = k' := fun hh => h (hh.symm.trans h1)
      rw [if_neg (by simp [h1])]
      have hred : mapGet (kv :: rest) k' = mapGet rest k' := by
        simp [mapGet, h2]
      exact ih.trans hred.symm
    · rw [if_pos (by simp [h1])]
      by_cases h2 : kv.1 = k'
      · simp [mapGet, h2]
      · have hredL : mapGet (kv :: mapDel rest k) k' =
            mapGet (mapDel rest k) k' := by simp [mapGet, h2]
        have hredR : mapGet (kv :: rest) k' = mapGet rest k' := by
          simp [mapGet, h2]
        exact hredL.trans (ih.trans hredR.symm)

theorem specSet_of_not_mem {M : List (K × V)} {k : K}
    (h : ∀ kv ∈ M, kv.1 ≠ k) (v : V) : specSet M k v = M ++ [(k, v)] := by
  induction M with
  | nil => rfl
  | cons kv rest ih =>
    have h1 : kv.1 ≠ k := h kv (by simp)
    have h2 := ih (fun kv' hkv' => h kv' (List.mem_cons_of_mem _ hkv'))
    simp only [specSet, if_neg h1, List.cons_append]
    rw [h2]

theorem specSet_of_getElem {M : List (K × V)} {k : K} {i : Nat} {kv : K × V}
    (hnod : (M.map Prod.fst).Nodup) (hi : M[i]? = some kv) (hk : kv.1 = k)
    (v : V) : specSet M k v = M.set i (k, v) := by
  induction M generalizing i with
  | nil => simp at hi
  | cons kv0 rest ih =>
    rw [List.map_cons, List.nodup_cons] at hnod
    cases i with
    | zero =>
      have h1 : kv0 = kv := by simpa using hi
      rw [h1] at hnod ⊢
      simp [specSet, hk]
    | succ i =>
      have hi' : rest[i]? = some kv := by simpa using hi
      have h2 : kv0.1 ≠ k := by
        intro hh
        refine hnod.1 ?_
        rw [hh, ← hk]
        exact List.mem_map.mpr ⟨kv, List.mem_iff_getElem?.mpr ⟨i, hi'⟩, rfl⟩
      have h3 := ih hnod.2 hi'
      simp only [specSet, if_neg h2, List.set_cons_succ]
      rw [h3]

theorem specDel_of_not_mem {M : List (K × V)} {k : K}
    (h : ∀ kv ∈ M, kv.1 ≠ k) : specDel M k = M := by
  refine List.filter_eq_self.mpr ?_
  intro kv hkv
  simpa using h kv hkv

theorem specDel_of_getElem {M : List (K × V)} {k : K} {i : Nat} {kv : K × V}
    (hnod : (M.map Prod.fst).Nodup) (hi : M[i]? = some kv) (hk : kv.1 = k) :
    specDel M k = M.take i ++ M.drop (i + 1) := by
  induction M generalizing i with
  | nil => simp at hi
  | cons kv0 rest ih =>
    rw [List.map_cons, List.nodup_cons] at hnod
    cases i with
    | zero =>
      have h1 : kv0 = kv := by simpa using hi
      have hk0 : kv0.1 = k := by rw [h1]; exact hk
      have h2 : ∀ kv' ∈ rest, kv'.1 ≠ k := by
        intro kv' hkv' hh
        refine hnod.1 ?_
        rw [hk0, ← hh]
        exact List.mem_map.mpr ⟨kv', hkv', rfl⟩
      unfold specDel
      rw [List.filter_cons, if_neg (by simp [hk0])]
      have h3 := specDel_of_not_mem h2
      unfold specDel at h3
      rw [h3]
      simp
    | succ i =>
      have hi' : rest[i]? = some kv := by simpa using hi
      have h2 : kv0.1 ≠ k := by
        intro hh
        refine hnod.1 ?_
        rw [hh, ← hk]
        exact List.mem_map.mpr ⟨kv, List.mem_iff_getElem?.mpr ⟨i, hi'⟩, rfl⟩
      unfold specDel
      rw [List.filter_cons, if_pos (by simp [h2])]
      have h3 := ih hnod.2 hi'
      unfold specDel at h3
      rw [h3]
      simp

theorem getElem?_erase_mid {α : Type} (l : List α) {i : Nat} (j : Nat)
    (hi : i < l.length) :
    (l.take i ++ l.drop (i + 1))[j]? =
      if j < i then l[j]? else l[j + 1]? := by
  by_cases hj : j < i
  · rw [if_pos hj, List.getElem?_append_left (by
      rw [List.length_take]
      omega)]
    rw [List.getElem?_take, if_pos hj]
  · rw [if_neg hj, List.getElem?_append_right (by
      rw [List.length_take]
      omega)]
    rw [List.getElem?_drop]
    congr 1
    rw [List.length_take]
    omega

theorem omrep_pids_nodup {om : OMap K V} {pids eids : List Nat}
    {M : List (K × V)} (h : OMRep om pids eids M) : pids.Nodup := by
  obtain ⟨hcore, hlen1, hlen2, hpair, helem, hnod, hget, hnone⟩ := h
  obtain ⟨l, -, -, hnodup, -, -, -, -⟩ := hcore
  have heidsnod : eids.Nodup := (List.nodup_cons.mp hnodup).2
  rw [List.nodup_iff_getElem?_ne_getElem?]
  intro i j hij hj hcontra
  have hj' : pids[j]? ≠ none := by
    intro hh
    rw [List.getElem?_eq_none_iff] at hh
    omega
  obtain ⟨pid, hpid⟩ := Option.ne_none_iff_exists'.mp hj'
  have hpidi : pids[i]? = some pid := by rw [hcontra]; exact hpid
  obtain ⟨p, eidI, kvI, heI, -, hpI, helsI, -, -⟩ := hpair i pid hpidi
  obtain ⟨p', eidJ, kvJ, heJ, -, hpJ, helsJ, -, -⟩ := hpair j pid hpid
  have hpp : p = p' := Option.some.inj (hpI.symm.trans hpJ)
  have heidq : eidI = eidJ := by
    have h1 := helsI
    rw [hpp, helsJ] at h1
    exact (Option.some.inj h1).symm
  have hieq : i = j := by
    refine List.getElem?_inj ?_ heidsnod ?_
    · exact (List.getElem?_eq_some.mp heI).1
    · rw [heI, heJ, heidq]
  omega

theorem omrep_lookup_inv {om : OMap K V} {pids eids : List Nat}
    {M : List (K × V)} {k : K} {pid : Nat} (h : OMRep om pids eids M)
    (hk : mapGet om.pmap k = some pid) :
    ∃ (i : Nat) (kv : K × V), pids[i]? = some pid ∧ M[i]? = some kv ∧
      kv.1 = k := by
  obtain ⟨hcore, hlen1, hlen2, hpair, helem, hnod, hget, hnone⟩ := h
  by_cases hmem : ∀ kv ∈ M, kv.1 ≠ k
  · rw [hnone k hmem] at hk
    exact Option.noConfusion hk
  · push_neg at hmem
    obtain ⟨kv, hkvmem, hkvk⟩ := hmem
    obtain ⟨i, hi⟩ := List.mem_iff_getElem?.mp hkvmem
    obtain ⟨pid', hpid', hget'⟩ := hget i kv hi
    rw [hkvk, hk] at hget'
    have h1 : pid' = pid := Option.some.inj hget'.symm
    exact ⟨i, kv, h1 ▸ hpid', hi, hkvk⟩

theorem omrep_not_mem_of_lookup_none {om : OMap K V} {pids eids : List Nat}
    {M : List (K × V)} {k : K} (h : OMRep om pids eids M)
    (hk : mapGet om.pmap k = none) : ∀ kv ∈ M, kv.1 ≠ k := by
  obtain ⟨hcore, hlen1, hlen2, hpair, helem, hnod, hget, hnone⟩ := h
  intro kv hkv hcontra
  obtain ⟨i, hi⟩ := List.mem_iff_getElem?.mp hkv
  obtain ⟨pid', -, hget'⟩ := hget i kv hi
  rw [hcontra, hk] at hget'
  exact Option.noConfusion hget'

theorem New_rep : OMRep (New : OMap K V) [] [] [] := by
  refine ⟨?_, rfl, rfl, ?_, ?_, ?_, ?_, ?_⟩
  · exact corerep_newListWorld (none : Ptr)
  · intro i pid hpid
    simp at hpid
  · intro i eid heid
    simp at heid
  · simp
  · intro i kv hkv
    simp at hkv
  · intro k _
    rfl

theorem Set_present_step [Inhabited V] {om : OMap K V} {pids eids : List Nat}
    {M : List (K × V)} {k : K} {pid : Nat}
    (h : OMRep om pids eids M) (hk : mapGet om.pmap k = some pid) (v : V) :
    ∃ (i : Nat) (v0 : V) (om' : OMap K V),
      M[i]? = some (k, v0) ∧
      Set om k v = some (om', v0, true) ∧
      om'.world = om.world ∧ om'.pmap = om.pmap ∧ om'.lid = om.lid ∧
      om'.pairsH.length = om.pairsH.length ∧
      specSet M k v = M.set i (k, v) ∧
      OMRep om' pids eids (M.set i (k, v)) := by
  have hpnodup := omrep_pids_nodup h
  obtain ⟨i, kv, hpidi, hMi, hkvk⟩ := omrep_lookup_inv h hk
  obtain ⟨hcore, hlen1, hlen2, hpair, helem, hnod, hget, hnone⟩ := h
  obtain ⟨p, eid, kv', heid, hMi', hp, hpel, hpk, hpv⟩ := hpair i pid hpidi
  have hkv' : kv' = kv := Option.some.inj (hMi'.symm.trans hMi)
  rw [hkv'] at hpk hpv
  have hMik : M[i]? = some (k, kv.2) := by
    rw [hMi, ← hkvk]
  have hilt : i < M.length := (List.getElem?_eq_some.mp hMi).1
  have hpidlt : pid < om.pairsH.length := (List.getElem?_eq_some.mp hp).1
  have hexec : Set om k v =
      some (⟨om.world, om.pairsH.set pid { p with value := v }, om.pmap,
        om.lid⟩, kv.2, true) := by
    unfold Set
    rw [hk]
    simp only [Option.bind_eq_bind]
    rw [hp]
    simp only [Option.some_bind, Option.pure_def]
    rw [hpv]
  have hkeys : (M.set i (k, v)).map Prod.fst = M.map Prod.fst := by
    refine List.ext_getElem? ?_
    intro n
    by_cases hn : n = i
    · rw [hn]
      simp only [List.getElem?_map]
      rw [List.getElem?_set_self (by omega), hMi]
      simp [hkvk]
    · simp only [List.getElem?_map]
      rw [List.getElem?_set_ne (fun hh => hn hh.symm)]
  refine ⟨i, kv.2, _, hMik, hexec, rfl, rfl, rfl, by simp, ?_, ?_⟩
  · rw [specSet_of_getElem hnod hMi hkvk v]
  · refine ⟨hcore, hlen1, by simpa using hlen2, ?_, helem, ?_, ?_, ?_⟩
    · intro j pid' hpid'
      obtain ⟨p2, eid2, kv2, heid2, hM2, hp2, hel2, hk2, hv2⟩ :=
        hpair j pid' hpid'
      by_cases hji : j = i
      · rw [hji] at hpid' hM2 ⊢
        have hpe : pid' = pid := Option.some.inj (hpid'.symm.trans hpidi)
        have hpp : p2 = p := by
          rw [hpe] at hp2
          exact Option.some.inj (hp2.symm.trans hp)
        refine ⟨{ p with value := v }, eid, (k, v), heid, ?_, ?_, ?_, ?_, rfl⟩
        · rw [List.getElem?_set_self (by omega)]
        · rw [hpe]
          exact List.getElem?_set_self (by omega)
        · simpa using hpel
        · show p.key = k
          rw [hpk, hkvk]
      · have hpidne : pid' ≠ pid := by
          intro hh
          refine hji (List.getElem?_inj ?_ hpnodup ?_)
          · exact (List.getElem?_eq_some.mp hpid').1
          · rw [hpid', hpidi, hh]
        refine ⟨p2, eid2, kv2, heid2, ?_, ?_, hel2, hk2, hv2⟩
        · rw [List.getElem?_set_ne (fun hh => hji hh.symm)]
          exact hM2
        · rw [List.getElem?_set_ne (fun hh => hpidne hh.symm)]
          exact hp2
    · rw [hkeys]
      exact hnod
    · intro j kv2 hj
      by_cases hji : j = i
      · rw [hji] at hj ⊢
        rw [List.getElem?_set_self (by omega)] at hj
        have h2 : kv2 = (k, v) := Option.some.inj hj.symm
        rw [h2]
        exact ⟨pid, hpidi, hk⟩
      · rw [List.getElem?_set_ne (fun hh => hji hh.symm)] at hj
        exact hget j kv2 hj
    · intro k' hk'
      refine hnone k' ?_
      intro kv2 hkv2 hcontra
      have h2 : kv2.1 ∈ (M.set i (k, v)).map Prod.fst := by
        rw [hkeys]
        exact List.mem_map.mpr ⟨kv2, hkv2, rfl⟩
      obtain ⟨kv3, hkv3, hkv3eq⟩ := List.mem_map.mp h2
      exact hk' kv3 hkv3 (by rw [hkv3eq, hcontra])

theorem Set_absent_step [Inhabited V] {om : OMap K V} {pids eids : List Nat}
    {M : List (K × V)} {k : K}
    (h : OMRep om pids eids M) (hk : mapGet om.pmap k = none) (v : V) :
    ∃ om' : OMap K V, Set om k v = some (om', default, false) ∧
      specSet M k v = M ++ [(k, v)] ∧
      OMRep om' (pids ++ [om.pairsH.length])
        (eids ++ [om.world.elems.length]) (M ++ [(k, v)]) ∧
      om'.pairsH.length = om.pairsH.length + 1 ∧
      om'.lid = om.lid ∧ om'.world.elems.length = om.world.elems.length + 1 := by
  have hnotmem : ∀ kv ∈ M, kv.1 ≠ k := omrep_not_mem_of_lookup_none h hk
  obtain ⟨hcore, hlen1, hlen2, hpair, helem, hnod, hget, hnone⟩ := h
  obtain ⟨w2, l, hl, hexecPB, hcore', hlenw, hlw2, -, hvframe, hvnew⟩ :=
    pushBack_core (some om.pairsH.length) hcore
  set pid := om.pairsH.length with hpiddef
  set n0 := om.world.elems.length with hn0def
  set z : GoPair K V := ⟨k, v, none⟩ with hzdef
  set ph : List (GoPair K V) := om.pairsH ++ [z] with hphdef
  have hphpid : ph[pid]? = some z := List.getElem?_concat_length _ _
  set p2 : GoPair K V := ⟨k, v, some n0⟩ with hp2def
  set ph2 : List (GoPair K V) := ph.set pid p2 with hph2def
  have hpidlt : pid < ph.length := by
    rw [hphdef]
    simp [List.length_append]
  set om' : OMap K V := ⟨w2, ph2, mapSet om.pmap k pid, om.lid⟩ with homdef
  have hexec : Set om k v = some (om', default, false) := by
    unfold Set
    rw [hk]
    simp only [Option.bind_eq_bind]
    rw [hexecPB]
    simp only [Option.some_bind]
    rw [hphpid]
    simp only [Option.some_bind, Option.pure_def]
  have hph2j : ∀ j, j < om.pairsH.length → ph2[j]? = om.pairsH[j]? := by
    intro j hj
    rw [hph2def, List.getElem?_set_ne (by omega), hphdef,
      List.getElem?_append_left hj]
  have hph2pid : ph2[pid]? = some p2 :=
    List.getElem?_set_self (by omega)
  refine ⟨om', hexec, specSet_of_not_mem hnotmem v, ?_, ?_, rfl, by
    show w2.elems.length = n0 + 1
    rw [hlenw]⟩
  swap
  · show ph2.length = pid + 1
    rw [hph2def, List.length_set, hphdef]
    simp [List.length_append]
  refine ⟨hcore', by simp [hlen1], by simp [hlen2, hlen1], ?_, ?_, ?_, ?_, ?_⟩
  · -- pair table conjunct
    intro j pid' hpid'
    by_cases hj : j < pids.length
    · rw [List.getElem?_append_left hj] at hpid'
      obtain ⟨p3, eid3, kv3, heid3, hM3, hp3, hel3, hk3, hv3⟩ :=
        hpair j pid' hpid'
      have hpid'lt : pid' < om.pairsH.length :=
        (List.getElem?_eq_some.mp hp3).1
      refine ⟨p3, eid3, kv3, ?_, ?_, ?_, hel3, hk3, hv3⟩
      · rw [List.getElem?_append_left (by omega), heid3]
      · rw [List.getElem?_append_left (by omega), hM3]
      · rw [hph2j pid' hpid'lt]
        exact hp3
    · have hjlen : j = pids.length := by
        by_contra hne
        have hge : pids.length + 1 ≤ j := by omega
        rw [List.getElem?_append_right (by omega)] at hpid'
        rw [List.getElem?_eq_none (by simp; omega)] at hpid'
        exact Option.noConfusion hpid'
      rw [hjlen, List.getElem?_concat_length] at hpid'
      have hpid'eq : pid' = pid := (Option.some.inj hpid').symm
      refine ⟨p2, n0, (k, v), ?_, ?_, ?_, rfl, rfl, rfl⟩
      · rw [hjlen, hlen1, List.getElem?_concat_length]
      · rw [hjlen, ← hlen2, List.getElem?_concat_length]
      · rw [hpid'eq]
        exact hph2pid
  · -- element table conjunct
    intro j eid' heid'
    by_cases hj : j < eids.length
    · rw [List.getElem?_append_left hj] at heid'
      obtain ⟨e3, pid3, hpid3, he3, hv3⟩ := helem j eid' heid'
      have heidlt : eid' < n0 := lt_of_elem he3
      have hvf := hvframe eid' (by omega)
      rw [he3] at hvf
      simp only [Option.map_some'] at hvf
      obtain ⟨e4, he4, hv4⟩ := Option.map_eq_some'.mp hvf
      refine ⟨e4, pid3, ?_, he4, ?_⟩
      · rw [List.getElem?_append_left (by omega), hpid3]
      · rw [hv4, hv3]
    · have hjlen : j = eids.length := by
        by_contra hne
        rw [List.getElem?_append_right (by omega)] at heid'
        rw [List.getElem?_eq_none (by simp; omega)] at heid'
        exact Option.noConfusion heid'
      rw [hjlen, List.getElem?_concat_length] at heid'
      have heideq : eid' = n0 := (Option.some.inj heid').symm
      obtain ⟨e4, he4, hv4⟩ := Option.map_eq_some'.mp hvnew
      refine ⟨e4, pid, ?_, ?_, ?_⟩
      · rw [hjlen, ← hlen1, List.getElem?_concat_length]
      · rw [heideq]
        exact he4
      · rw [hv4]
  · -- key uniqueness
    rw [List.map_append]
    rw [List.nodup_append]
    refine ⟨hnod, by simp, ?_⟩
    intro a ha ha'
    have h1 : a = k := by simpa using ha'
    obtain ⟨kv3, hkv3, hkv3eq⟩ := List.mem_map.mp ha
    exact hnotmem kv3 hkv3 (by rw [hkv3eq, h1])
  · -- hash-map lookup conjunct
    intro j kv2 hj
    by_cases hjlt : j < M.length
    · rw [List.getElem?_append_left hjlt] at hj
      obtain ⟨pid3, hpid3, hget3⟩ := hget j kv2 hj
      refine ⟨pid3, ?_, ?_⟩
      · rw [List.getElem?_append_left (by omega), hpid3]
      · rw [mapGet_mapSet_ne _ _ (hnotmem kv2 (List.mem_iff_getElem?.mpr
          ⟨j, hj⟩))]
        exact hget3
    · have hjlen : j = M.length := by
        by_contra hne
        rw [List.getElem?_append_right (by omega)] at hj
        rw [List.getElem?_eq_none (by simp; omega)] at hj
        exact Option.noConfusion hj
      rw [hjlen, List.getElem?_concat_length] at hj
      have hkv2 : kv2 = (k, v) := (Option.some.inj hj).symm
      refine ⟨pid, ?_, ?_⟩
      · rw [hjlen, hlen2, List.getElem?_concat_length]
      · rw [hkv2]
        exact mapGet_mapSet_self _ _ _
  · -- absent keys still lookup to none
    intro k' hk'
    have hkk' : k ≠ k' := by
      intro hh
      exact hk' (k, v) (by simp) (by rw [hh])
    rw [mapGet_mapSet_ne _ _ (fun hh => hkk' hh.symm)]
    refine hnone k' ?_
    intro kv2 hkv2
    exact hk' kv2 (List.mem_append.mpr (Or.inl hkv2))

theorem split_at_getElem {α : Type} {l : List α} {i : Nat} {a : α}
    (h : l[i]? = some a) : l.take i ++ a :: l.drop (i + 1) = l := by
  obtain ⟨hlt, heq⟩ := List.getElem?_eq_some.mp h
  rw [← heq, List.getElem_cons_drop, List.take_append_drop]

omit [DecidableEq K] in
theorem key_ne_of_index_ne {M : List (K × V)}
    (hnod : (M.map Prod.fst).Nodup) {i j : Nat} {kvi kvj : K × V}
    (hi : M[i]? = some kvi) (hj : M[j]? = some kvj) (hij : i ≠ j) :
    kvi.1 ≠ kvj.1 := by
  intro hh
  have hinj : ∀ {i j : Nat}, i < (M.map Prod.fst).length →
      (M.map Prod.fst).Nodup → (M.map Prod.fst)[i]? = (M.map Prod.fst)[j]? →
      i = j := fun h1 h2 h3 => List.getElem?_inj h1 h2 h3
  refine hij (hinj ?_ hnod ?_)
  · simpa using (List.getElem?_eq_some.mp hi).1
  · rw [List.getElem?_map, List.getElem?_map, hi, hj]
    simpa using hh

theorem Delete_absent_step [Inhabited V] {om : OMap K V}
    {pids eids : List Nat} {M : List (K × V)} {k : K}
    (h : OMRep om pids eids M) (hk : mapGet om.pmap k = none) :
    Delete om k = some (om, default, false) ∧ specDel M k = M := by
  constructor
  · unfold Delete
    rw [hk]
  · exact specDel_of_not_mem (omrep_not_mem_of_lookup_none h hk)

theorem Delete_present_step [Inhabited V] {om : OMap K V}
    {pids eids : List Nat} {M : List (K × V)} {k : K} {pid : Nat}
    (h : OMRep om pids eids M) (hk : mapGet om.pmap k = some pid) :
    ∃ (i : Nat) (v0 : V) (om' : OMap K V),
      M[i]? = some (k, v0) ∧ pids[i]? = some pid ∧
      Delete om k = some (om', v0, true) ∧
      om'.pairsH = om.pairsH ∧ om'.lid = om.lid ∧
      om'.world.elems.length = om.world.elems.length ∧
      specDel M k = M.take i ++ M.drop (i + 1) ∧
      OMRep om' (pids.take i ++ pids.drop (i + 1))
        (eids.take i ++ eids.drop (i + 1))
        (M.take i ++ M.drop (i + 1)) := by
  have hpnodup := omrep_pids_nodup h
  obtain ⟨i, kv, hpidi, hMi, hkvk⟩ := omrep_lookup_inv h hk
  obtain ⟨hcore, hlen1, hlen2, hpair, helem, hnod, hget, hnone⟩ := h
  obtain ⟨p, eid, kv', heidi, hMi', hp, hpel, hpk, hpv⟩ := hpair i pid hpidi
  have hkv' : kv' = kv := Option.some.inj (hMi'.symm.trans hMi)
  rw [hkv'] at hpk hpv
  have hMik : M[i]? = some (k, kv.2) := by rw [hMi, ← hkvk]
  have hilt : i < M.length := (List.getElem?_eq_some.mp hMi).1
  have hilt1 : i < pids.length := by omega
  have hilt2 : i < eids.length := by omega
  have hsplit := split_at_getElem heidi
  rw [← hsplit] at hcore
  obtain ⟨w2, l, ex, hl, hex, hexl, hexecRm, hcore', hlenw, hlw2, -,
    hvframe, hxinv⟩ := remove_core hcore
  set om' : OMap K V := ⟨w2, om.pairsH, mapDel om.pmap k, om.lid⟩ with homdef
  have hexec : Delete om k = some (om', kv.2, true) := by
    unfold Delete
    rw [hk]
    simp only [Option.bind_eq_bind]
    rw [hp]
    simp only [Option.some_bind]
    rw [hpel, hexecRm]
    simp only [Option.some_bind, hp, Option.pure_def]
    rw [hpv]
  have herasem := fun j => getElem?_erase_mid M j hilt
  have herasep := fun j => getElem?_erase_mid pids j hilt1
  have herasee := fun j => getElem?_erase_mid eids j hilt2
  refine ⟨i, kv.2, om', hMik, hpidi, hexec, rfl, rfl, by
    show w2.elems.length = om.world.elems.length
    rw [hlenw], specDel_of_getElem hnod hMi hkvk, ?_⟩
  refine ⟨hcore', ?_, ?_, ?_, ?_, ?_, ?_, ?_⟩
  · simp only [List.length_append, List.length_take, List.length_drop]
    omega
  · simp only [List.length_append, List.length_take, List.length_drop]
    omega
  · -- pair table conjunct
    intro j pid' hpid'
    rw [herasep j] at hpid'
    by_cases hj : j < i
    · rw [if_pos hj] at hpid'
      obtain ⟨p3, eid3, kv3, heid3, hM3, hp3, hel3, hk3, hv3⟩ :=
        hpair j pid' hpid'
      exact ⟨p3, eid3, kv3, by rw [herasee j, if_pos hj]; exact heid3,
        by rw [herasem j, if_pos hj]; exact hM3, hp3, hel3, hk3, hv3⟩
    · rw [if_neg hj] at hpid'
      obtain ⟨p3, eid3, kv3, heid3, hM3, hp3, hel3, hk3, hv3⟩ :=
        hpair (j + 1) pid' hpid'
      exact ⟨p3, eid3, kv3, by rw [herasee j, if_neg hj]; exact heid3,
        by rw [herasem j, if_neg hj]; exact hM3, hp3, hel3, hk3, hv3⟩
  · -- element table conjunct
    intro j eid' heid'
    rw [herasee j] at heid'
    by_cases hj : j < i
    · rw [if_pos hj] at heid'
      obtain ⟨e3, pid3, hpid3, he3, hv3⟩ := helem j eid' heid'
      have hvf := hvframe eid'
      rw [he3] at hvf
      simp only [Option.map_some'] at hvf
      obtain ⟨e4, he4, hv4⟩ := Option.map_eq_some'.mp hvf
      exact ⟨e4, pid3, by rw [herasep j, if_pos hj]; exact hpid3, he4,
        by rw [hv4, hv3]⟩
    · rw [if_neg hj] at heid'
      obtain ⟨e3, pid3, hpid3, he3, hv3⟩ := helem (j + 1) eid' heid'
      have hvf := hvframe eid'
      rw [he3] at hvf
      simp only [Option.map_some'] at hvf
      obtain ⟨e4, he4, hv4⟩ := Option.map_eq_some'.mp hvf
      exact ⟨e4, pid3, by rw [herasep j, if_neg hj]; exact hpid3, he4,
        by rw [hv4, hv3]⟩
  · -- key uniqueness
    have hsub : (M.take i ++ M.drop (i + 1)).Sublist M := by
      have h1 : (M.drop (i + 1)).Sublist (M.drop i) := by
        rw [← List.getElem_cons_drop M i hilt]
        exact List.sublist_cons_self _ _
      have h2 := List.Sublist.append (List.Sublist.refl (M.take i)) h1
      rw [List.take_append_drop] at h2
      exact h2
    exact (hsub.map Prod.fst).nodup hnod
  · -- hash-map lookup conjunct
    intro j kv2 hj
    rw [herasem j] at hj
    by_cases hjlt : j < i
    · rw [if_pos hjlt] at hj
      obtain ⟨pid3, hpid3, hg3⟩ := hget j kv2 hj
      have hkne : kv2.1 ≠ k := by
        have := key_ne_of_index_ne hnod hj hMik (by omega)
        simpa using this
      exact ⟨pid3, by rw [herasep j, if_pos hjlt]; exact hpid3,
        by rw [mapGet_mapDel_ne _ hkne]; exact hg3⟩
    · rw [if_neg hjlt] at hj
      obtain ⟨pid3, hpid3, hg3⟩ := hget (j + 1) kv2 hj
      have hkne : kv2.1 ≠ k := by
        have := key_ne_of_index_ne hnod hj hMik (by omega)
        simpa using this
      exact ⟨pid3, by rw [herasep j, if_neg hjlt]; exact hpid3,
        by rw [mapGet_mapDel_ne _ hkne]; exact hg3⟩
  · -- absent keys still lookup to none
    intro k' hk'
    by_cases hkk : k' = k
    · rw [hkk]
      exact mapGet_mapDel_self _ _
    · rw [mapGet_mapDel_ne _ hkk]
      refine hnone k' ?_
      intro kv2 hkv2 hcontra
      obtain ⟨j2, hj2⟩ := List.mem_iff_getElem?.mp hkv2
      by_cases hj2i : j2 = i
      · rw [hj2i, hMik] at hj2
        have h2 : kv2 = (k, kv.2) := (Option.some.inj hj2).symm
        rw [h2] at hcontra
        exact hkk hcontra.symm
      · have hmem' : kv2 ∈ M.take i ++ M.drop (i + 1) := by
          refine List.mem_iff_getElem?.mpr ?_
          by_cases hj2lt : j2 < i
          · exact ⟨j2, by rw [herasem j2, if_pos hj2lt]; exact hj2⟩
          · have hge : i + 1 ≤ j2 := by omega
            refine ⟨j2 - 1, ?_⟩
            rw [herasem (j2 - 1), if_neg (by omega)]
            have : j2 - 1 + 1 = j2 := by omega
            rw [this]
            exact hj2
        exact hk' kv2 hmem' hcontra

theorem PairNext_rep {om : OMap K V} {pids eids : List Nat}
    {M : List (K × V)} {i pid : Nat}
    (h : OMRep om pids eids M) (hpid : pids[i]? = some pid) :
    PairNext om pid = some pids[i + 1]? := by
  obtain ⟨hcore, hlen1, hlen2, hpair, helem, hnod, hget, hnone⟩ := h
  obtain ⟨p, eid, kv, heid, hM, hp, hel, -, -⟩ := hpair i pid hpid
  have hsplit := split_at_getElem heid
  have hcore2 := hcore
  rw [← hsplit] at hcore2
  have hnext := Next_core hcore2
  unfold PairNext
  rw [hp]
  simp only [Option.bind_eq_bind, Option.some_bind]
  rw [hel]
  simp only [Option.some_bind]
  rw [hnext]
  simp only [Option.some_bind]
  rw [List.head?_drop]
  cases hdh : eids[i + 1]? with
  | none =>
    have hlene : eids.length ≤ i + 1 := List.getElem?_eq_none_iff.mp hdh
    rw [List.getElem?_eq_none (by omega)]
    rfl
  | some eid2 =>
    obtain ⟨e2, pid2, hpid2, he2, hv2⟩ := helem (i + 1) eid2 hdh
    unfold listElementToPair
    simp only [Option.bind_eq_bind]
    rw [he2]
    simp only [Option.some_bind, Option.pure_def]
    rw [hv2, hpid2]

theorem Oldest_rep {om : OMap K V} {pids eids : List Nat}
    {M : List (K × V)} (h : OMRep om pids eids M) :
    Oldest om = some pids[0]? := by
  obtain ⟨hcore, hlen1, hlen2, hpair, helem, hnod, hget, hnone⟩ := h
  unfold Oldest
  rw [Front_core hcore]
  simp only [Option.bind_eq_bind, Option.some_bind]
  rw [List.head?_eq_getElem?]
  cases hdh : eids[0]? with
  | none =>
    have hlene : eids.length ≤ 0 := List.getElem?_eq_none_iff.mp hdh
    rw [List.getElem?_eq_none (by omega)]
    rfl
  | some e0 =>
    obtain ⟨e2, pid0, hpid0, he2, hv2⟩ := helem 0 e0 hdh
    unfold listElementToPair
    simp only [Option.bind_eq_bind]
    rw [he2]
    simp only [Option.some_bind, Option.pure_def]
    rw [hv2, hpid0]

theorem omrep_pids_length_le {om : OMap K V} {pids eids : List Nat}
    {M : List (K × V)} (h : OMRep om pids eids M) :
    pids.length ≤ om.pairsH.length := by
  have hpnodup := omrep_pids_nodup h
  obtain ⟨hcore, hlen1, hlen2, hpair, helem, hnod, hget, hnone⟩ := h
  have hbound : ∀ pid ∈ pids, pid < om.pairsH.length := by
    intro pid hmem
    obtain ⟨i, hi⟩ := List.mem_iff_getElem?.mp hmem
    obtain ⟨p, -, -, -, -, hp, -, -, -⟩ := hpair i pid hi
    exact (List.getElem?_eq_some.mp hp).1
  calc pids.length = pids.toFinset.card :=
        (List.toFinset_card_of_nodup hpnodup).symm
    _ ≤ (Finset.range om.pairsH.length).card := by
        refine Finset.card_le_card ?_
        intro pid hmem
        rw [List.mem_toFinset] at hmem
        rw [Finset.mem_range]
        exact hbound pid hmem
    _ = om.pairsH.length := Finset.card_range _

theorem traverseFrom_rep {om : OMap K V} {pids eids : List Nat}
    {M : List (K × V)} (h : OMRep om pids eids M) :
    ∀ (fuel i : Nat), pids.length - i ≤ fuel →
      traverseFrom om pids[i]? fuel = some (M.drop i) := by
  intro fuel
  induction fuel with
  | zero =>
    intro i hf
    have hge : pids.length ≤ i := by omega
    rw [List.getElem?_eq_none hge]
    rw [List.drop_eq_nil_of_le (by
      obtain ⟨-, hlen1, hlen2, -⟩ := h
      omega)]
    rfl
  | succ fuel ih =>
    intro i hf
    cases hpi : pids[i]? with
    | none =>
      have hge : pids.length ≤ i := List.getElem?_eq_none_iff.mp hpi
      rw [List.drop_eq_nil_of_le (by
        obtain ⟨-, hlen1, hlen2, -⟩ := h
        omega)]
      rfl
    | some pid =>
      have hilt : i < pids.length := (List.getElem?_eq_some.mp hpi).1
      have hnexteq := PairNext_rep h hpi
      obtain ⟨hcore, hlen1, hlen2, hpair, helem, hnod, hget, hnone⟩ := h
      obtain ⟨p, eid, kv, heid, hM, hp, hel, hpk, hpv⟩ := hpair i pid hpi
      show (do
        let p ← om.pairsH[pid]?
        let np ← PairNext om pid
        let rest ← traverseFrom om np fuel
        pure ((p.key, p.value) :: rest)) = some (M.drop i)
      rw [hp]
      simp only [Option.bind_eq_bind, Option.some_bind]
      rw [hnexteq]
      simp only [Option.some_bind]
      rw [ih (i + 1) (by omega)]
      simp only [Option.some_bind, Option.pure_def]
      have hMlt : i < M.length := by omega
      rw [hpk, hpv, ← List.getElem_cons_drop M i hMlt]
      congr 2
      exact ((List.getElem?_eq_some.mp hM).2).symm

theorem traversal_rep {om : OMap K V} {pids eids : List Nat}
    {M : List (K × V)} (h : OMRep om pids eids M) :
    traversal om = some M := by
  unfold traversal
  rw [Oldest_rep h]
  simp only [Option.bind_eq_bind, Option.some_bind]
  have h1 := traverseFrom_rep h om.pairsH.length 0
    (by simpa using omrep_pids_length_le h)
  simpa using h1

/-- The simulation theorem: any sequence of Set/Delete calls on a map
satisfying the representation invariant executes without panics and
yields a map representing the abstract insertion-ordered association
list. -/
theorem runOps_rep [Inhabited V] :
    ∀ (ops : List (Op K V)) (om : OMap K V) (pids eids : List Nat)
      (M : List (K × V)), OMRep om pids eids M →
      ∃ (om' : OMap K V) (pids' eids' : List Nat),
        runOps om ops = some om' ∧ OMRep om' pids' eids' (specRun M ops) := by
  intro ops
  induction ops with
  | nil =>
    intro om pids eids M h
    exact ⟨om, pids, eids, rfl, h⟩
  | cons op rest ih =>
    intro om pids eids M h
    cases op with
    | set k v =>
      cases hk : mapGet om.pmap k with
      | some pid =>
        obtain ⟨i, v0, om', hMi, hexec, -, -, -, -, hspec, hrep'⟩ :=
          Set_present_step h hk v
        obtain ⟨om2, pids2, eids2, hrun, hrep2⟩ := ih om' pids eids _ hrep'
        refine ⟨om2, pids2, eids2, ?_, ?_⟩
        · show (do
            let r ← Set om k v
            runOps r.1 rest) = some om2
          rw [hexec]
          simp only [Option.bind_eq_bind, Option.some_bind]
          exact hrun
        · show OMRep om2 pids2 eids2 (specRun (specSet M k v) rest)
          rw [hspec]
          exact hrep2
      | none =>
        obtain ⟨om', hexec, hspec, hrep', -, -, -⟩ := Set_absent_step h hk v
        obtain ⟨om2, pids2, eids2, hrun, hrep2⟩ := ih om' _ _ _ hrep'
        refine ⟨om2, pids2, eids2, ?_, ?_⟩
        · show (do
            let r ← Set om k v
            runOps r.1 rest) = some om2
          rw [hexec]
          simp only [Option.bind_eq_bind, Option.some_bind]
          exact hrun
        · show OMRep om2 pids2 eids2 (specRun (specSet M k v) rest)
          rw [hspec]
          exact hrep2
    | del k =>
      cases hk : mapGet om.pmap k with
      | some pid =>
        obtain ⟨i, v0, om', hMi, hpidi, hexec, -, -, -, hspec, hrep'⟩ :=
          Delete_present_step h hk
        obtain ⟨om2, pids2, eids2, hrun, hrep2⟩ := ih om' _ _ _ hrep'
        refine ⟨om2, pids2, eids2, ?_, ?_⟩
        · show (do
            let r ← Delete om k
            runOps r.1 rest) = some om2
          rw [hexec]
          simp only [Option.bind_eq_bind, Option.some_bind]
          exact hrun
        · show OMRep om2 pids2 eids2 (specRun (specDel M k) rest)
          rw [hspec]
          exact hrep2
      | none =>
        obtain ⟨hexec, hspec⟩ := Delete_absent_step h hk
        obtain ⟨om2, pids2, eids2, hrun, hrep2⟩ := ih om pids eids
          (specDel M k) (by rw [hspec]; exact h)
        refine ⟨om2, pids2, eids2, ?_, ?_⟩
        · show (do
            let r ← Delete om k
            runOps r.1 rest) = some om2
          rw [hexec]
          simp only [Option.bind_eq_bind, Option.some_bind]
          exact hrun
        · exact hrep2

/-- Every call sequence from a fresh map runs without panics and reaches
a state representing the abstract model. -/
theorem run_rep [Inhabited V] (ops : List (Op K V)) :
    ∃ (om : OMap K V) (pids eids : List Nat),
      run ops = some om ∧ OMRep om pids eids (specRun [] ops) :=
  runOps_rep ops New [] [] [] New_rep

theorem Get_eq_of_lookup [Inhabited V] {om : OMap K V}
    {pids eids : List Nat} {M : List (K × V)} {k : K} {pid : Nat}
    (h : OMRep om pids eids M) (hk : mapGet om.pmap k = some pid) :
    ∃ (i : Nat) (kv : K × V), M[i]? = some kv ∧ kv.1 = k ∧
      Get om k = some (kv.2, true) := by
  obtain ⟨i, kv, hpidi, hMi, hkvk⟩ := omrep_lookup_inv h hk
  obtain ⟨hcore, hlen1, hlen2, hpair, helem, hnod, hget, hnone⟩ := h
  obtain ⟨p, eid, kv', heid, hMi', hp, hpel, hpk, hpv⟩ := hpair i pid hpidi
  have hkv' : kv' = kv := Option.some.inj (hMi'.symm.trans hMi)
  refine ⟨i, kv, hMi, hkvk, ?_⟩
  unfold Get
  rw [hk]
  simp only [Option.bind_eq_bind]
  rw [hp]
  simp only [Option.some_bind, Option.pure_def]
  rw [hpv, hkv']

theorem Get_absent_eq [Inhabited V] {om : OMap K V} {k : K}
    (hk : mapGet om.pmap k = none) : Get om k = some (default, false) := by
  unfold Get
  rw [hk]

theorem Get_found_iff [Inhabited V] {om : OMap K V}
    {pids eids : List Nat} {M : List (K × V)}
    (h : OMRep om pids eids M) (k : K) :
    (∃ v, Get om k = some (v, true)) ↔ k ∈ M.map Prod.fst := by
  cases hk : mapGet om.pmap k with
  | none =>
    rw [Get_absent_eq hk]
    constructor
    · intro ⟨v, hv⟩
      have h1 : (default, false) = ((v, true) : V × Bool) := Option.some.inj hv
      exact absurd (congrArg Prod.snd h1) (by simp)
    · intro hmem
      exfalso
      obtain ⟨kv, hkv, hkveq⟩ := List.mem_map.mp hmem
      obtain ⟨i, hi⟩ := List.mem_iff_getElem?.mp hkv
      obtain ⟨-, -, -, -, -, -, hget, -⟩ := h
      obtain ⟨pid, -, hg⟩ := hget i kv hi
      rw [hkveq, hk] at hg
      exact Option.noConfusion hg
  | some pid =>
    obtain ⟨i, kv, hMi, hkvk, hGet⟩ := Get_eq_of_lookup h hk
    constructor
    · intro _
      rw [← hkvk]
      exact List.mem_map.mpr ⟨kv, List.mem_iff_getElem?.mpr ⟨i, hMi⟩, rfl⟩
    · intro _
      exact ⟨kv.2, hGet⟩

theorem lookup_some_of_Get_found [Inhabited V] {om : OMap K V} {k : K}
    {v0 : V} (h : Get om k = some (v0, true)) :
    ∃ pid, mapGet om.pmap k = some pid := by
  cases hk : mapGet om.pmap k with
  | none =>
    rw [Get_absent_eq hk] at h
    have h1 : (default, false) = ((v0, true) : V × Bool) := Option.some.inj h
    exact absurd (congrArg Prod.snd h1) (by simp)
  | some pid => exact ⟨pid, rfl⟩

theorem lookup_none_of_Get_not_found [Inhabited V] {om : OMap K V} {k : K}
    {v0 : V} (h : Get om k = some (v0, false))
    {pids eids : List Nat} {M : List (K × V)} (hrep : OMRep om pids eids M) :
    mapGet om.pmap k = none := by
  cases hk : mapGet om.pmap k with
  | none => rfl
  | some pid =>
    obtain ⟨i, kv, hMi, hkvk, hGet⟩ := Get_eq_of_lookup hrep hk
    rw [hGet] at h
    have h1 : (kv.2, true) = ((v0, false) : V × Bool) := Option.some.inj h
    exact absurd (congrArg Prod.snd h1) (by simp)

theorem specSet_map_fst_mem {M : List (K × V)} {k : K} (v : V)
    (h : k ∈ M.map Prod.fst) :
    (specSet M k v).map Prod.fst = M.map Prod.fst := by
  induction M with
  | nil => simp at h
  | cons kv rest ih =>
    by_cases h1 : kv.1 = k
    · simp [specSet, h1]
    · have h2 : k ∈ rest.map Prod.fst := by
        rw [List.map_cons, List.mem_cons] at h
        rcases h with h3 | h3
        · exact absurd h3.symm h1
        · exact h3
      simp [specSet, h1, ih h2]

theorem specSet_map_fst_not_mem {M : List (K × V)} {k : K} (v : V)
    (h : k ∉ M.map Prod.fst) :
    (specSet M k v).map Prod.fst = M.map Prod.fst ++ [k] := by
  induction M with
  | nil => simp [specSet]
  | cons kv rest ih =>
    have h1 : kv.1 ≠ k := by
      intro hh
      exact h (by rw [List.map_cons, hh]; exact List.mem_cons_self _ _)
    have h2 : k ∉ rest.map Prod.fst := by
      intro hh
      exact h (by rw [List.map_cons]; exact List.mem_cons_of_mem _ hh)
    simp [specSet, h1, ih h2]

/-- Claim C1 (invariants): for every sequence of Set/Delete calls from a
freshly created OrderedMap, after each call (equivalently, for every call
sequence) the set of keys for which Get returns found=true equals the set
of keys visited by the Oldest/Next traversal. -/
theorem C1_cross_structure_consistency [Inhabited V] (ops : List (Op K V))
    (om : OMap K V) (hrun : run ops = some om) :
    ∃ tr : List (K × V), traversal om = some tr ∧
      ∀ k : K, (∃ v, Get om k = some (v, true)) ↔ k ∈ tr.map Prod.fst := by
  obtain ⟨om', pids, eids, hrun', hrep⟩ := run_rep ops
  have homeq : om' = om := Option.some.inj (hrun'.symm.trans hrun)
  subst homeq
  exact ⟨_, traversal_rep hrep, fun k => Get_found_iff hrep k⟩

theorem C1_witness : ∃ tr : List (String × Nat),
    traversal exOm = some tr ∧
    ∀ k : String, (∃ v, Get exOm k = some (v, true)) ↔ k ∈ tr.map Prod.fst :=
  C1_cross_structure_consistency exOps exOm rfl

/-- Claim C2 (functional correctness): from every reachable map, the
Oldest/Next iteration visits every present pair exactly once (keys are
pairwise distinct and are exactly the Get-found keys), in the order of
each key's first insertion among still-present keys (the traversal equals
the abstract model `specRun`, which appends a key on first insertion,
keeps its place on update, and forgets it on deletion), and terminates
with nil after the newest pair (the traversal loop returns). -/
theorem C2_iteration_protocol [Inhabited V] (ops : List (Op K V))
    (om : OMap K V) (hrun : run ops = some om) :
    ∃ tr : List (K × V), traversal om = some tr ∧
      tr = specRun [] ops ∧
      (tr.map Prod.fst).Nodup ∧
      (∀ k : K, (∃ v, Get om k = some (v, true)) ↔ k ∈ tr.map Prod.fst) := by
  obtain ⟨om', pids, eids, hrun', hrep⟩ := run_rep ops
  have homeq : om' = om := Option.some.inj (hrun'.symm.trans hrun)
  subst homeq
  have hnod := hrep.2.2.2.2.2.1
  exact ⟨_, traversal_rep hrep, rfl, hnod,
    fun k => Get_found_iff hrep k⟩

theorem C2_witness : ∃ tr : List (String × Nat),
    traversal exOm = some tr ∧
    tr = specRun [] exOps ∧
    (tr.map Prod.fst).Nodup ∧
    (∀ k : String, (∃ v, Get exOm k = some (v, true)) ↔ k ∈ tr.map Prod.fst) :=
  C2_iteration_protocol exOps exOm rfl

theorem Get_rep_at [Inhabited V] {om : OMap K V} {pids eids : List Nat}
    {M : List (K × V)} {i : Nat} {kv : K × V}
    (h : OMRep om pids eids M) (hMi : M[i]? = some kv) :
    Get om kv.1 = some (kv.2, true) := by
  have hnod := h.2.2.2.2.2.1
  obtain ⟨pid, hpid, hg⟩ := h.2.2.2.2.2.2.1 i kv hMi
  obtain ⟨i2, kv2, hMi2, hk2, hGet⟩ := Get_eq_of_lookup h hg
  have hieq : i2 = i := by
    by_contra hne
    exact key_ne_of_index_ne hnod hMi2 hMi hne (hk2.trans rfl)
  rw [hieq, hMi] at hMi2
  have hkveq : kv2 = kv := Option.some.inj hMi2.symm
  rw [hkveq] at hGet
  exact hGet

/-- Claim C3 (functional correctness): Set on a present key replaces the
stored value in place, creating and moving nothing in the list (the
element heap and length are untouched, the hash map is untouched) and
returns the previous value with present=true; Set on an absent key
creates one new pair, allocates one new list element at the tail, inserts
the key in the hash map, and returns present=false. -/
theorem C3_set_contract [Inhabited V] (ops : List (Op K V)) (om : OMap K V)
    (hrun : run ops = some om) (k : K) (v : V) :
    (∀ v0, Get om k = some (v0, true) →
      ∃ om', Set om k v = some (om', v0, true) ∧
        om'.world = om.world ∧
        om'.pairsH.length = om.pairsH.length ∧
        om'.pmap = om.pmap ∧
        Get om' k = some (v, true)) ∧
    (Get om k = some (default, false) →
      ∃ om' tr, Set om k v = some (om', default, false) ∧
        om'.pairsH.length = om.pairsH.length + 1 ∧
        om'.world.elems.length = om.world.elems.length + 1 ∧
        traversal om = some tr ∧
        traversal om' = some (tr ++ [(k, v)]) ∧
        Get om' k = some (v, true)) := by
  obtain ⟨om2, pids, eids, hrun', hrep⟩ := run_rep ops
  have homeq : om2 = om := Option.some.inj (hrun'.symm.trans hrun)
  subst homeq
  constructor
  · intro v0 hGet0
    obtain ⟨pid, hk⟩ := lookup_some_of_Get_found hGet0
    obtain ⟨i, v0', om', hMi, hexec, hworld, hpmap, hlid, hplen, hspec,
      hrep'⟩ := Set_present_step hrep hk v
    have hGet1 := Get_rep_at hrep hMi
    have hv0 : v0' = v0 := by
      rw [hGet1] at hGet0
      exact congrArg Prod.fst (Option.some.inj hGet0)
    have hilt : i < (specRun [] ops).length := (List.getElem?_eq_some.mp hMi).1
    refine ⟨om', hv0 ▸ hexec, hworld, hplen, hpmap, ?_⟩
    have hset : ((specRun [] ops).set i (k, v))[i]? = some (k, v) :=
      List.getElem?_set_self (by simpa using hilt)
    simpa using Get_rep_at hrep' hset
  · intro hGet0
    have hk := lookup_none_of_Get_not_found hGet0 hrep
    obtain ⟨om', hexec, hspec, hrep', hplen, hlid, hwlen⟩ :=
      Set_absent_step hrep hk v
    refine ⟨om', specRun [] ops, hexec, hplen, hwlen, traversal_rep hrep,
      traversal_rep hrep', ?_⟩
    have hset : (specRun [] ops ++ [(k, v)])[(specRun [] ops).length]? =
        some (k, v) := List.getElem?_concat_length _ _
    simpa using Get_rep_at hrep' hset

theorem run_exOps_eq : run exOps = some exOm := rfl

theorem C3_witness : ∃ om', Set exOm "a" 7 = some (om', 1, true) ∧
    om'.world = exOm.world ∧
    om'.pairsH.length = exOm.pairsH.length ∧
    om'.pmap = exOm.pmap ∧
    Get om' "a" = some (7, true) :=
  (C3_set_contract exOps exOm run_exOps_eq "a" 7).1 1 (by rfl)

/-- Claim C4 (frame effect): Set on an absent key appends the key at the
end of the traversal order, leaving the relative order of all previously
inserted still-present keys unchanged; Set on a present key leaves the
whole key order of the traversal unchanged (so the key keeps its
position). -/
theorem C4_order_preservation [Inhabited V] (ops : List (Op K V))
    (om : OMap K V) (hrun : run ops = some om) (k : K) (v : V) :
    ∃ (tr : List (K × V)) (om' : OMap K V) (r : V × Bool)
      (tr' : List (K × V)),
      traversal om = some tr ∧
      Set om k v = some (om', r) ∧
      traversal om' = some tr' ∧
      (k ∈ tr.map Prod.fst → tr'.map Prod.fst = tr.map Prod.fst) ∧
      (k ∉ tr.map Prod.fst → tr'.map Prod.fst = tr.map Prod.fst ++ [k]) := by
  obtain ⟨om2, pids, eids, hrun', hrep⟩ := run_rep ops
  have homeq : om2 = om := Option.some.inj (hrun'.symm.trans hrun)
  rw [homeq] at hrep
  cases hk : mapGet om.pmap k with
  | some pid =>
    obtain ⟨i, v0, om', hMi, hexec, -, -, -, -, hspec, hrep'⟩ :=
      Set_present_step hrep hk v
    have hmem : k ∈ (specRun [] ops).map Prod.fst := by
      refine List.mem_map.mpr ⟨(k, v0), ?_, rfl⟩
      exact List.mem_iff_getElem?.mpr ⟨i, hMi⟩
    refine ⟨specRun [] ops, om', (v0, true), specSet (specRun [] ops) k v,
      traversal_rep hrep, hexec, by rw [hspec]; exact traversal_rep hrep',
      ?_, ?_⟩
    · intro _
      exact specSet_map_fst_mem v hmem
    · intro hcontra
      exact absurd hmem hcontra
  | none =>
    obtain ⟨om', hexec, hspec, hrep', -, -, -⟩ := Set_absent_step hrep hk v
    have hnotmem : k ∉ (specRun [] ops).map Prod.fst := by
      intro hmem
      obtain ⟨kv, hkv, hkveq⟩ := List.mem_map.mp hmem
      exact omrep_not_mem_of_lookup_none hrep hk kv hkv hkveq
    refine ⟨specRun [] ops, om', (default, false), specSet (specRun [] ops) k v,
      traversal_rep hrep, hexec, by rw [hspec]; exact traversal_rep hrep',
      ?_, ?_⟩
    · intro hcontra
      exact absurd hcontra hnotmem
    · intro _
      exact specSet_map_fst_not_mem v hnotmem

theorem C4_witness : ∃ (tr : List (String × Nat)) (om' : OMap String Nat)
    (r : Nat × Bool) (tr' : List (String × Nat)),
    traversal exOm = some tr ∧
    Set exOm "z" 4 = some (om', r) ∧
    traversal om' = some tr' ∧
    ("z" ∈ tr.map Prod.fst → tr'.map Prod.fst = tr.map Prod.fst) ∧
    ("z" ∉ tr.map Prod.fst → tr'.map Prod.fst = tr.map Prod.fst ++ ["z"]) :=
  C4_order_preservation exOps exOm run_exOps_eq "z" 4

/-- Claim C5 (error handling): Delete on a present key removes the key
(afterwards Get reports not-found and the traversal never yields the
key), returning the value Get would have returned together with true;
Delete on an absent key returns found=false and leaves the map literally
unchanged, so all Get results and the traversal sequence are unchanged. -/
theorem C5_delete_contract [Inhabited V] (ops : List (Op K V))
    (om : OMap K V) (hrun : run ops = some om) (k : K) :
    (∀ v0, Get om k = some (v0, true) →
      ∃ (om' : OMap K V) (tr : List (K × V)),
        Delete om k = some (om', v0, true) ∧
        Get om' k = some (default, false) ∧
        traversal om = some tr ∧
        traversal om' = some (specDel tr k) ∧
        k ∉ (specDel tr k).map Prod.fst) ∧
    (∀ v0, Get om k = some (v0, false) →
      Delete om k = some (om, default, false)) := by
  obtain ⟨om2, pids, eids, hrun', hrep⟩ := run_rep ops
  have homeq : om2 = om := Option.some.inj (hrun'.symm.trans hrun)
  subst homeq
  constructor
  · intro v0 hGet0
    obtain ⟨pid, hk⟩ := lookup_some_of_Get_found hGet0
    obtain ⟨i, v0', om', hMik, hpidi, hexec, hpairsH, hlid, hwlen, hspec,
      hrep'⟩ := Delete_present_step hrep hk
    have hGet1 := Get_rep_at hrep hMik
    have hv0 : v0' = v0 := by
      rw [hGet1] at hGet0
      exact congrArg Prod.fst (Option.some.inj hGet0)
    have hknone : mapGet om'.pmap k = none := by
      refine hrep'.2.2.2.2.2.2.2 k ?_
      intro kv hkv hcontra
      obtain ⟨j, hj⟩ := List.mem_iff_getElem?.mp hkv
      rw [getElem?_erase_mid (specRun [] ops) j
        ((List.getElem?_eq_some.mp hMik).1)] at hj
      have hnod := hrep.2.2.2.2.2.1
      by_cases hjlt : j < i
      · rw [if_pos hjlt] at hj
        exact key_ne_of_index_ne hnod hj hMik (by omega) (by simpa using hcontra)
      · rw [if_neg hjlt] at hj
        exact key_ne_of_index_ne hnod hj hMik (by omega) (by simpa using hcontra)
    refine ⟨om', specRun [] ops, hv0 ▸ hexec, Get_absent_eq hknone,
      traversal_rep hrep, by rw [hspec]; exact traversal_rep hrep', ?_⟩
    intro hmem
    obtain ⟨kv, hkv, hkveq⟩ := List.mem_map.mp hmem
    unfold specDel at hkv
    have h1 := (List.mem_filter.mp hkv).2
    simp only [ne_eq, decide_not, Bool.not_eq_eq_eq_not, Bool.not_true,
      decide_eq_false_iff_not] at h1
    exact h1 hkveq
  · intro v0 hGet0
    have hk := lookup_none_of_Get_not_found hGet0 hrep
    exact (Delete_absent_step hrep hk).1

theorem C5_witness :
    (∃ (om' : OMap String Nat) (tr : List (String × Nat)),
      Delete exOm "a" = some (om', 1, true) ∧
      Get om' "a" = some (default, false) ∧
      traversal exOm = some tr ∧
      traversal om' = some (specDel tr "a") ∧
      "a" ∉ (specDel tr "a").map Prod.fst) ∧
    Delete exOm "q" = some (exOm, default, false) :=
  ⟨(C5_delete_contract exOps exOm run_exOps_eq "a").1 1 (by rfl),
   (C5_delete_contract exOps exOm run_exOps_eq "q").2 0 (by rfl)⟩

/-- Claim C6 (functional correctness): after a successful Delete of key
k, a subsequent Set of k appends it at the current tail of the traversal
order (its original position is not restored) and Get then reports the
newest value with found=true; instantiating with keys a, b, c, deleting
b, and re-inserting b yields traversal order a, c, b. -/
theorem C6_reinsert_at_tail [Inhabited V] (ops : List (Op K V))
    (om : OMap K V) (hrun : run ops = some om) (k : K) (v : V) :
    ∀ v0, Get om k = some (v0, true) →
      ∃ (om' om'' : OMap K V) (tr : List (K × V)),
        traversal om = some tr ∧
        Delete om k = some (om', v0, true) ∧
        Set om' k v = some (om'', default, false) ∧
        traversal om'' = some (specDel tr k ++ [(k, v)]) ∧
        Get om'' k = some (v, true) := by
  obtain ⟨om2, pids, eids, hrun', hrep⟩ := run_rep ops
  have homeq : om2 = om := Option.some.inj (hrun'.symm.trans hrun)
  subst homeq
  intro v0 hGet0
  obtain ⟨pid, hk⟩ := lookup_some_of_Get_found hGet0
  obtain ⟨i, v0', om', hMik, hpidi, hexec, hpairsH, hlid, hwlen, hspec,
    hrep'⟩ := Delete_present_step hrep hk
  have hGet1 := Get_rep_at hrep hMik
  have hv0 : v0' = v0 := by
    rw [hGet1] at hGet0
    exact congrArg Prod.fst (Option.some.inj hGet0)
  have hknone : mapGet om'.pmap k = none := by
    refine hrep'.2.2.2.2.2.2.2 k ?_
    intro kv hkv hcontra
    obtain ⟨j, hj⟩ := List.mem_iff_getElem?.mp hkv
    rw [getElem?_erase_mid (specRun [] ops) j
      ((List.getElem?_eq_some.mp hMik).1)] at hj
    have hnod := hrep.2.2.2.2.2.1
    by_cases hjlt : j < i
    · rw [if_pos hjlt] at hj
      exact key_ne_of_index_ne hnod hj hMik (by omega) (by simpa using hcontra)
    · rw [if_neg hjlt] at hj
      exact key_ne_of_index_ne hnod hj hMik (by omega) (by simpa using hcontra)
  obtain ⟨om'', hexec2, hspec2, hrep'', -, -, -⟩ :=
    Set_absent_step hrep' hknone v
  refine ⟨om', om'', specRun [] ops, traversal_rep hrep, hv0 ▸ hexec,
    hexec2, ?_, ?_⟩
  · rw [hspec]
    exact traversal_rep hrep''
  · set MD := (specRun [] ops).take i ++ (specRun [] ops).drop (i + 1)
    have hset : (MD ++ [(k, v)])[MD.length]? = some (k, v) :=
      List.getElem?_concat_length _ _
    simpa using Get_rep_at hrep'' hset

theorem run_exOps3_eq : run exOps3 = some exOm3 := rfl

theorem C6_witness :
    ∃ (om' om'' : OMap String Nat) (tr : List (String × Nat)),
      traversal exOm3 = some tr ∧
      Delete exOm3 "b" = some (om', 2, true) ∧
      Set om' "b" 9 = some (om'', default, false) ∧
      traversal om'' = some (specDel tr "b" ++ [("b", 9)]) ∧
      Get om'' "b" = some (9, true) :=
  C6_reinsert_at_tail exOps3 exOm3 run_exOps3_eq "b" 9 2 (by rfl)

/-- Claim C8 (safety): on every reachable map, Get, Set, Delete, Oldest,
and Pair.Next on a pair handle still registered in the hash map are total
and never panic (the embedding returns `none` exactly where the Go code
would dereference nil or touch a non-allocated cell); absence is reported
only through the found boolean or a nil pair handle. -/
theorem C8_totality [Inhabited V] (ops : List (Op K V)) (om : OMap K V)
    (hrun : run ops = some om) :
    (∀ k : K, ∃ r, Get om k = some r) ∧
    (∀ (k : K) (v : V), ∃ s, Set om k v = some s) ∧
    (∀ k : K, ∃ s, Delete om k = some s) ∧
    (∃ p, Oldest om = some p) ∧
    (∀ (k : K) (pid : Nat), mapGet om.pmap k = some pid →
      ∃ q, PairNext om pid = some q) := by
  obtain ⟨om2, pids, eids, hrun', hrep⟩ := run_rep ops
  have homeq : om2 = om := Option.some.inj (hrun'.symm.trans hrun)
  rw [homeq] at hrep
  refine ⟨?_, ?_, ?_, ?_, ?_⟩
  · intro k
    cases hk : mapGet om.pmap k with
    | none => exact ⟨(default, false), Get_absent_eq hk⟩
    | some pid =>
      obtain ⟨i, kv, -, -, hGet⟩ := Get_eq_of_lookup hrep hk
      exact ⟨(kv.2, true), hGet⟩
  · intro k v
    cases hk : mapGet om.pmap k with
    | none =>
      obtain ⟨om', hexec, -⟩ := Set_absent_step hrep hk v
      exact ⟨(om', default, false), hexec⟩
    | some pid =>
      obtain ⟨i, v0, om', -, hexec, -⟩ := Set_present_step hrep hk v
      exact ⟨(om', v0, true), hexec⟩
  · intro k
    cases hk : mapGet om.pmap k with
    | none =>
      exact ⟨(om, default, false), (Delete_absent_step hrep hk).1⟩
    | some pid =>
      obtain ⟨i, v0, om', -, -, hexec, -⟩ := Delete_present_step hrep hk
      exact ⟨(om', v0, true), hexec⟩
  · exact ⟨_, Oldest_rep hrep⟩
  · intro k pid hk
    obtain ⟨i, kv, hpidi, -, -⟩ := omrep_lookup_inv hrep hk
    exact ⟨_, PairNext_rep hrep hpidi⟩

theorem C8_witness :
    (∀ k : String, ∃ r, Get exOm k = some r) ∧
    (∀ (k : String) (v : Nat), ∃ s, Set exOm k v = some s) ∧
    (∀ k : String, ∃ s, Delete exOm k = some s) ∧
    (∃ p, Oldest exOm = some p) ∧
    (∀ (k : String) (pid : Nat), mapGet exOm.pmap k = some pid →
      ∃ q, PairNext exOm pid = some q) :=
  C8_totality exOps exOm run_exOps_eq

/-- Claim C7 (invariants): every list world reachable from the freshly
initialized empty ring by PushBack and Remove of owned elements keeps the
ring invariant: there is a duplicate-free sequence of element ids such
that following the sentinel's next pointers walks exactly that sequence
and first returns to the sentinel after visiting all of them (so the
sentinel is always in the ring, no element appears twice, and the length
counter equals the number of non-sentinel elements reachable from the
sentinel back to itself). -/
theorem C7_ring_invariant {T : Type} (d : T) (w : World T) (lid : Nat)
    (h : LReach d w lid) :
    ∃ (l : GoList) (eids : List Nat),
      w.list lid = some l ∧
      l.len = (eids.length : Int) ∧
      (l.root :: eids).Nodup ∧
      (∀ k, k ≤ eids.length →
        chain w l.root k = some (((l.root :: eids) ++ [l.root]).getD k 0)) ∧
      chain w l.root (eids.length + 1) = some l.root ∧
      (∀ j, 0 < j → j ≤ eids.length → chain w l.root j ≠ some l.root) := by
  obtain ⟨eids, hrep⟩ := lreach_corerep h
  obtain ⟨l, hl, hring, hnodup, hlen, howned, hcomp, re, hre, hreN⟩ := hrep
  have hchain := chain_ring hring
  refine ⟨l, eids, hl, hlen, hnodup, ?_, ?_, ?_⟩
  · intro k hk
    exact hchain k (by omega)
  · have h1 := hchain (eids.length + 1) (by omega)
    have hgd : ((l.root :: eids) ++ [l.root]).getD (eids.length + 1) 0 =
        l.root := by
      rw [List.getD_eq_getElem _ _ (by simp)]
      rw [List.getElem_append_right (by simp)]
      simp
    rw [h1, hgd]
  · intro j hj0 hjn
    obtain ⟨j', rfl⟩ : ∃ j', j = j' + 1 := ⟨j - 1, by omega⟩
    have hb : j' < eids.length := by omega
    have hgd : ((l.root :: eids) ++ [l.root]).getD (j' + 1) 0 =
        eids[j'] := by
      rw [List.getD_eq_getElem _ _ (by simp; omega)]
      rw [List.getElem_append_left (by simp; omega)]
      exact List.getElem_cons_succ _ _ _ (by simp; omega)
    rw [hchain (j' + 1) (by omega), hgd]
    intro hcontra
    have h2 : eids[j'] = l.root := Option.some.inj hcontra
    have hrootnot : l.root ∉ eids := (List.nodup_cons.mp hnodup).1
    exact hrootnot (h2 ▸ List.getElem_mem hb)

theorem exLW_reach : LReach 0 exLW 0 :=
  LReach.push LReach.base
    (show PushBack (newListWorld 0) 0 5 = some (exLW, 1) from rfl)

theorem C7_witness :
    ∃ (l : GoList) (eids : List Nat),
      exLW.list 0 = some l ∧
      l.len = (eids.length : Int) ∧
      (l.root :: eids).Nodup ∧
      (∀ k, k ≤ eids.length →
        chain exLW l.root k =
          some (((l.root :: eids) ++ [l.root]).getD k 0)) ∧
      chain exLW l.root (eids.length + 1) = some l.root ∧
      (∀ j, 0 < j → j ≤ eids.length → chain exLW l.root j ≠ some l.root) :=
  C7_ring_invariant 0 exLW 0 exLW_reach

/-- Claim C9 (error handling): on a reachable list, Remove of a non-nil
element that belongs to the list unlinks it from the ring (the remaining
ring satisfies the invariant without it), decrements the length counter
by one, and invalidates the handle (its next/prev/list references become
nil); Remove of an element that does not belong to the list leaves the
world entirely unchanged; in both cases the element's stored value is
returned. -/
theorem C9_remove_ownership {T : Type} (d : T) (w : World T) (lid i : Nat)
    (e : GoElem T) (h : LReach d w lid) (he : w.elem i = some e) :
    (e.list = some lid →
      ∃ (w' : World T) (l : GoList) (eids eids' : List Nat),
        Remove w lid (some i) = some (w', e.value) ∧
        w.list lid = some l ∧
        w'.list lid = some { l with len := l.len - 1 } ∧
        w'.elem i = some ⟨none, none, none, e.value⟩ ∧
        CoreRep w lid eids ∧ i ∈ eids ∧
        CoreRep w' lid eids' ∧ i ∉ eids') ∧
    (e.list ≠ some lid →
      Remove w lid (some i) = some (w, e.value)) := by
  constructor
  · intro hown
    obtain ⟨eids, hrep⟩ := lreach_corerep h
    have hrep0 := hrep
    have hmem : i ∈ eids := by
      obtain ⟨l, -, -, -, -, -, hcomp, -⟩ := hrep
      exact hcomp i e he hown
    obtain ⟨s, t, hst⟩ := List.append_of_mem hmem
    rw [hst] at hrep
    obtain ⟨w', l, ex, hl, hex, hexl, hexec, hrep', hlen', hlw', -, -,
      hxinv⟩ := remove_core hrep
    have hexe : ex = e := Option.some.inj (hex.symm.trans he)
    have hnotmem : i ∉ s ++ t := by
      have hnodup : (l.root :: (s ++ i :: t)).Nodup := by
        obtain ⟨l2, hl2, -, hnd, -⟩ := hrep
        have : l2 = l := Option.some.inj (hl2.symm.trans hl)
        rw [← this]
        exact hnd
      have h1 : (s ++ i :: t).Nodup := (List.nodup_cons.mp hnodup).2
      obtain ⟨h2, h3, h4⟩ := List.nodup_append.mp h1
      intro hcontra
      rcases List.mem_append.mp hcontra with h5 | h5
      · exact h4 h5 (by simp)
      · exact (List.nodup_cons.mp h3).1 h5
    exact ⟨w', l, s ++ i :: t, s ++ t, hexe ▸ hexec, hl, hlw',
      hexe ▸ hxinv, hst ▸ hrep0, hst ▸ hmem, hrep', hnotmem⟩
  · intro hforeign
    exact Remove_foreign he hforeign

theorem C9_witness :
    ((∃ (w' : World Nat) (l : GoList) (eids eids' : List Nat),
        Remove exLW 0 (some 1) = some (w', 5) ∧
        exLW.list 0 = some l ∧
        w'.list 0 = some { l with len := l.len - 1 } ∧
        w'.elem 1 = some ⟨none, none, none, 5⟩ ∧
        CoreRep exLW 0 eids ∧ 1 ∈ eids ∧
        CoreRep w' 0 eids' ∧ 1 ∉ eids') ∧
     Remove exLW 0 (some 0) = some (exLW, 0)) := by
  constructor
  · exact (C9_remove_ownership 0 exLW 0 1 ⟨some 0, some 0, some 0, 5⟩
      exLW_reach rfl).1 rfl
  · exact (C9_remove_ownership 0 exLW 0 0 ⟨some 1, some 1, none, 0⟩
      exLW_reach rfl).2 (by simp)

theorem singleMsg_data16 (t : String) (m : Int) :
    (singleMsg t m).data[16]? = some ' ' := by
  have hplen : ("The hardest card is \"" : String).data.length = 21 := by
    decide
  unfold singleMsg
  rw [String.data_append, String.data_append, String.data_append,
    String.data_append]
  rw [List.getElem?_append_left (by
    simp only [List.length_append, hplen]; omega)]
  rw [List.getElem?_append_left (by
    simp only [List.length_append, hplen]; omega)]
  rw [List.getElem?_append_left (by
    simp only [List.length_append, hplen]; omega)]
  rw [List.getElem?_append_left (by rw [hplen]; omega)]
  decide

/-- Counterexample to claim C10 as stated: on a store with two distinct
terms tied at the maximal positive error count, HardestCard does not
report a single-element result: it takes the multi-card branch and
returns the plural message (whose items are index placeholders), which
is not of the single-card form for any term and count. -/
theorem C10_counterexample :
    traversal cardsEx.DefToTerm =
      some [("d1", ⟨"t1", 1⟩), ("d2", ⟨"t2", 1⟩)] ∧
    "t1" ≠ "t2" ∧ ((0 : Int) < 1) ∧
    HardestCard cardsEx =
      some "The hardest cards are \"%!s(int=0)\", \"%!s(int=1)\"" ∧
    ¬ ∃ (t : String) (m : Int), HardestCard cardsEx = some (singleMsg t m) := by
  refine ⟨by rfl, by decide, by decide, by rfl, ?_⟩
  rintro ⟨t, m, hsm⟩
  have hconc : HardestCard cardsEx =
      some "The hardest cards are \"%!s(int=0)\", \"%!s(int=1)\"" := by rfl
  rw [hconc] at hsm
  have heq : ("The hardest cards are \"%!s(int=0)\", \"%!s(int=1)\"" :
      String) = singleMsg t m := Option.some.inj hsm
  have h16 : ("The hardest cards are \"%!s(int=0)\", \"%!s(int=1)\"" :
      String).data[16]? = (singleMsg t m).data[16]? := by rw [heq]
  rw [singleMsg_data16] at h16
  have h16' : (("The hardest cards are \"%!s(int=0)\", \"%!s(int=1)\"" :
      String).data)[16]? = some 's' := by decide
  rw [h16'] at h16
  exact absurd (Option.some.inj h16) (by decide)

theorem hardestLoop_const_max :
    ∀ (es : List TermError) (t : String) (ts : List String) (M : Int),
      (∀ te ∈ es, te.errors ≤ M) →
      (hardestLoop es (M, t, ts)).1 = M ∧
      (hardestLoop es (M, t, ts)).2.2.length =
        ts.length + es.countP (fun te => te.errors = M) := by
  intro es
  induction es with
  | nil =>
    intro t ts M h
    simp [hardestLoop]
  | cons te rest ih =>
    intro t ts M h
    have hle : te.errors ≤ M := h te (by simp)
    by_cases h1 : te.errors = M
    · simp only [hardestLoop]
      rw [if_neg (by omega), if_pos h1]
      obtain ⟨ha, hb⟩ := ih t (ts ++ [t]) M
        (fun te' h' => h te' (List.mem_cons_of_mem _ h'))
      refine ⟨ha, ?_⟩
      rw [hb, List.countP_cons, if_pos (by simp [h1]), List.length_append]
      simp only [List.length_singleton]
      omega
    · simp only [hardestLoop]
      rw [if_neg (by omega), if_neg h1]
      obtain ⟨ha, hb⟩ := ih t ts M
        (fun te' h' => h te' (List.mem_cons_of_mem _ h'))
      refine ⟨ha, ?_⟩
      rw [hb, List.countP_cons, if_neg (by simp [h1])]
      omega

theorem hardestLoop_reach_max :
    ∀ (es : List TermError) (st : Int × String × List String) (M : Int),
      st.1 < M → (∀ te ∈ es, te.errors ≤ M) →
      (∃ te ∈ es, te.errors = M) →
      (hardestLoop es st).1 = M ∧
      (hardestLoop es st).2.2.length =
        es.countP (fun te => te.errors = M) := by
  intro es
  induction es with
  | nil =>
    intro st M h1 h2 h3
    simp at h3
  | cons te rest ih =>
    intro st M hlt hb hex
    obtain ⟨mx, t, ts⟩ := st
    simp only at hlt
    have hbound' : ∀ te' ∈ rest, te'.errors ≤ M :=
      fun te' h' => hb te' (List.mem_cons_of_mem _ h')
    by_cases h1 : te.errors = M
    · simp only [hardestLoop]
      rw [if_pos (by omega)]
      rw [h1]
      obtain ⟨ha, hbl⟩ := hardestLoop_const_max rest te.term [te.term] M
        hbound'
      refine ⟨ha, ?_⟩
      rw [hbl, List.countP_cons, if_pos (by simp [h1])]
      simp only [List.length_singleton]
      omega
    · have hle : te.errors ≤ M := hb te (by simp)
      have hex' : ∃ te' ∈ rest, te'.errors = M := by
        rcases hex with ⟨te', hmem, heq⟩
        rcases List.mem_cons.mp hmem with h2 | h2
        · exact absurd (h2 ▸ heq) h1
        · exact ⟨te', h2, heq⟩
      have hcount : (te :: rest).countP (fun te => te.errors = M) =
          rest.countP (fun te => te.errors = M) := by
        rw [List.countP_cons]
        simp [h1]
      simp only [hardestLoop]
      by_cases h2 : te.errors > mx
      · rw [if_pos h2]
        obtain ⟨ha, hbl⟩ := ih (te.errors, te.term, [te.term]) M
          (by simp only []; omega) hbound' hex'
        rw [hcount]
        exact ⟨ha, hbl⟩
      · rw [if_neg h2]
        by_cases h3 : te.errors = mx
        · rw [if_pos h3]
          obtain ⟨ha, hbl⟩ := ih (mx, t, ts ++ [t]) M (by simp only []; omega)
            hbound' hex'
          rw [hcount]
          exact ⟨ha, hbl⟩
        · rw [if_neg h3]
          obtain ⟨ha, hbl⟩ := ih (mx, t, ts) M (by simp only []; omega)
            hbound' hex'
          rw [hcount]
          exact ⟨ha, hbl⟩

/-- Amended claim C10: on every reachable card store in which two or
more entries tie for the maximal positive error count, HardestCard takes
the multi-card branch and returns the plural message, but the listed
items are the indices of the internal array rendered with the %s verb
(and, due to the accumulator append, the tied terms beyond the first are
never collected), rather than a single-element result naming one card. -/
theorem C10_amended_plural_with_placeholders
    (ops : List (Op String TermError)) (dm : OMap String TermError)
    (hrun : run ops = some dm) (tdm : OMap String String)
    (tr : List (String × TermError)) (htr : traversal dm = some tr)
    (M : Int) (hMpos : 0 < M)
    (hbound : ∀ te ∈ tr.map Prod.snd, te.errors ≤ M)
    (hcount : 2 ≤ (tr.map Prod.snd).countP (fun te => te.errors = M)) :
    HardestCard ⟨tdm, dm⟩ = some ("The hardest cards are " ++
      hardestAnsLoop (List.range
        ((tr.map Prod.snd).countP (fun te => te.errors = M))) true "") := by
  obtain ⟨om2, pids, eids, hrun', hrep⟩ := run_rep ops
  have homeq : om2 = dm := Option.some.inj (hrun'.symm.trans hrun)
  rw [homeq] at hrep
  have htr2 := traversal_rep hrep
  have htreq : tr = specRun [] ops := Option.some.inj (htr.symm.trans htr2)
  obtain ⟨l, hl, -, -, hlen, -, -, -⟩ := hrep.1
  have hlen1 : pids.length = eids.length := hrep.2.1
  have hlen2 : (specRun [] ops).length = pids.length := hrep.2.2.1
  have hexists : ∃ te ∈ tr.map Prod.snd, te.errors = M := by
    have h0 : 0 < (tr.map Prod.snd).countP (fun te => te.errors = M) := by
      omega
    obtain ⟨a, hmem, hp⟩ := List.countP_pos_iff.mp h0
    exact ⟨a, hmem, by simpa using hp⟩
  obtain ⟨hmx, hterms⟩ := hardestLoop_reach_max (tr.map Prod.snd)
    (-1, "", []) M (by simp only []; omega) hbound hexists
  have htrlen : 2 ≤ tr.length := by
    have h1 : (tr.map Prod.snd).countP (fun te => te.errors = M) ≤
        (tr.map Prod.snd).length := List.countP_le_length _
    simp only [List.length_map] at h1
    omega
  have hlen0 : l.len ≠ 0 := by
    rw [hlen]
    have : eids.length = tr.length := by
      rw [htreq] at htrlen ⊢
      omega
    omega
  show (do
    let tr2 ← traversal dm
    let st := hardestLoop (tr2.map Prod.snd) (-1, "", [])
    let l2 ← dm.world.list dm.lid
    if st.1 = 0 ∨ l2.len = 0 then
      pure "There are no cards with errors."
    else if st.2.2.length = 1 then
      pure ("The hardest card is \"" ++ st.2.1 ++ "\". You have " ++
        toString st.1 ++ " errors answering it")
    else if st.2.2.length > 1 then
      pure ("The hardest cards are " ++
        hardestAnsLoop (List.range st.2.2.length) true "")
    else pure "-1") = _
  rw [htr]
  simp only [Option.bind_eq_bind, Option.some_bind]
  rw [hl]
  simp only [Option.some_bind]
  rw [if_neg (by
    push_neg
    exact ⟨by rw [hmx]; omega, hlen0⟩)]
  rw [if_neg (by rw [hterms]; omega)]
  rw [if_pos (by rw [hterms]; omega)]
  rw [hterms]
  rfl

theorem C10_amended_witness :
    HardestCard ⟨New, exDm⟩ = some ("The hardest cards are " ++
      hardestAnsLoop (List.range
        ((([("d1", (⟨"t1", 1⟩ : TermError)), ("d2", ⟨"t2", 1⟩)].map
          Prod.snd)).countP (fun te => te.errors = 1))) true "") :=
  C10_amended_plural_with_placeholders
    [Op.set "d1" ⟨"t1", 1⟩, Op.set "d2" ⟨"t2", 1⟩] exDm rfl New
    [("d1", ⟨"t1", 1⟩), ("d2", ⟨"t2", 1⟩)] (by rfl) 1 (by decide)
    (by decide) (by decide)

end Flashcards
